import Mathlib

/-!
# The dedent transform of `src/trim.c`

`trim_` maps one routine over every element of a character vector.  The
routine works on the bytes of one C string `xx` of length `str_len`:

1. skip the leading blanks of the first line (lines 18-21),
2. skip a newline that follows them (lines 23-27),
3. measure the minimum indent of the later lines (lines 29-64),
4. copy the text from `start` into a fresh buffer `str`, dropping the
   minimum indent after every line start and dropping backslash-newline
   pairs (lines 66-89),
5. cut the buffer at the last newline when only blanks follow it
   (lines 91-103).

## Embedding

A byte is a natural number (`10` newline, `32` space, `9` tab, `92`
backslash, `0` the terminator).  The input string is the list of its bytes
without the terminator, so `str_len = xx.length`; a C string holds no `0`
byte, which the theorems assume as `NulFree xx`.

Every function returns an `Option`.  The value `none` marks an event that
the C program must not run into: a read of `xx` at an index that is not
below `str_len`, an access to `str` outside its `str_len + 1` bytes, a read
of a byte of `str` that was never written, a `size_t` operation whose exact
result does not fit in `w` bits (or drops below zero), or a loop that is
still running when its fuel (`str_len + 1` iterations) is used up.  The
variables keep the names they have in the source.
-/

namespace Glue

/-! ## The program

The loops of `trim_` in the order of the source, then the stages that the claims
speak about. -/

/-- The test `c == ' ' || c == '\t'`. -/
def isBlank (c : Nat) : Bool := c == 32 || c == 9

/-- Addition on `size_t` (width `w`); `none` when the sum needs more than `w` bits. -/
def szAdd (w a b : Nat) : Option Nat :=
  if a + b < 2 ^ w then some (a + b) else none

/-- The decrement `--j` on `size_t`; `none` when `j` is zero. -/
def szPred (j : Nat) : Option Nat :=
  if 0 < j then some (j - 1) else none

/-- A read `str[j]` of the output buffer; a cell is `none` until it is written. -/
def bufGet (str : List (Option Nat)) (j : Nat) : Option Nat :=
  match str[j]? with
  | some (some c) => some c
  | _ => none

/-- A write `str[j] = c` to the output buffer. -/
def bufSet (str : List (Option Nat)) (j c : Nat) : Option (List (Option Nat)) :=
  if j < str.length then some (str.set j (some c)) else none

/-- The bytes of the C string that starts at `str[0]`, as `Rf_mkCharCE` reads them. -/
def cString : List (Option Nat) → Option (List Nat)
  | [] => none
  | none :: _ => none
  | some c :: rest => if c = 0 then some [] else (cString rest).map (fun r => c :: r)

/-- Lines 19-21: `while (start < str_len && (xx[start] == ' ' || xx[start] == '\t')) ++start;`.
The first argument is the fuel. -/
def skipBlanks (w : Nat) (xx : List Nat) (str_len : Nat) : Nat → Nat → Option Nat
  | 0, _ => none
  | fuel + 1, start =>
    if start < str_len then do
      let c ← xx[start]?
      if isBlank c then
        skipBlanks w xx str_len fuel (← szAdd w start 1)
      else pure start
    else pure start

/-- Lines 24-27: `if (start < str_len && xx[start] == '\n') { new_line = true; ++start; }`.
Returns `start` and `new_line`. -/
def skipNewline (w : Nat) (xx : List Nat) (str_len start : Nat) : Option (Nat × Bool) :=
  if start < str_len then do
    let c ← xx[start]?
    if c = 10 then pure (← szAdd w start 1, true) else pure (start, false)
  else pure (start, false)

/-- Lines 33-35: `while (i < str_len && xx[i] != '\n') ++i;`. -/
def skipFirstLine (w : Nat) (xx : List Nat) (str_len : Nat) : Nat → Nat → Option Nat
  | 0, _ => none
  | fuel + 1, i =>
    if i < str_len then do
      let c ← xx[i]?
      if c ≠ 10 then
        skipFirstLine w xx str_len fuel (← szAdd w i 1)
      else pure i
    else pure i

/-- Lines 45-60, the loop that measures the indent.  Arguments after the fuel:
`i`, `new_line`, `indent`, `min_indent`; the result is `new_line`, `indent`
and `min_indent` when the loop is left. -/
def scanLoop (w : Nat) (xx : List Nat) (str_len : Nat) :
    Nat → Nat → Bool → Nat → Nat → Option (Bool × Nat × Nat)
  | 0, _, _, _, _ => none
  | fuel + 1, i, new_line, indent, min_indent =>
    if i < str_len then do
      let c ← xx[i]?
      if c = 10 then
        scanLoop w xx str_len fuel (← szAdd w i 1) true indent min_indent
      else if new_line then
        if isBlank c then do
          let indent ← szAdd w indent 1
          scanLoop w xx str_len fuel (← szAdd w i 1) new_line indent min_indent
        else
          scanLoop w xx str_len fuel (← szAdd w i 1) false 0
            (if indent < min_indent then indent else min_indent)
      else
        scanLoop w xx str_len fuel (← szAdd w i 1) new_line indent min_indent
    else pure (new_line, indent, min_indent)

/-- The test of line 77: `xx[i] == '\\' && i + 1 < str_len && xx[i + 1] == '\n'`. -/
def isEscape (w : Nat) (xx : List Nat) (str_len i : Nat) : Option Bool := do
  let c ← xx[i]?
  if c = 92 then
    let i1 ← szAdd w i 1
    if i1 < str_len then
      let d ← xx[i1]?
      pure (decide (d = 10))
    else pure false
  else pure false

/-- Lines 82-84: `if (i + min_indent < str_len && (xx[i] == ' ' || xx[i] == '\t')) i += min_indent;`.
Returns `i`. -/
def skipIndent (w : Nat) (xx : List Nat) (str_len min_indent i : Nat) : Option Nat := do
  let t ← szAdd w i min_indent
  if t < str_len then
    let c ← xx[i]?
    if isBlank c then pure t else pure i
  else pure i

/-- Lines 74-88, the copy loop.  Arguments after the fuel: `i`, `new_line`,
`j`, `str`; the result is `j` and `str` when the loop is left. -/
def copyLoop (w : Nat) (xx : List Nat) (str_len min_indent : Nat) :
    Nat → Nat → Bool → Nat → List (Option Nat) → Option (Nat × List (Option Nat))
  | 0, _, _, _, _ => none
  | fuel + 1, i, new_line, j, str =>
    if i < str_len then do
      let c ← xx[i]?
      if c = 10 then do
        let str ← bufSet str j c
        copyLoop w xx str_len min_indent fuel (← szAdd w i 1) true (← szAdd w j 1) str
      else if ← isEscape w xx str_len i then
        copyLoop w xx str_len min_indent fuel (← szAdd w i 2) true j str
      else if new_line then do
        let i ← skipIndent w xx str_len min_indent i
        let str ← bufSet str j (← xx[i]?)
        copyLoop w xx str_len min_indent fuel (← szAdd w i 1) false (← szAdd w j 1) str
      else do
        let str ← bufSet str j c
        copyLoop w xx str_len min_indent fuel (← szAdd w i 1) new_line (← szAdd w j 1) str
    else pure (j, str)

/-- Lines 93-102, the backward loop over the end of `str`.  Arguments after the
fuel: `j`, `end`; the result is `end`. -/
def trimLoop (str : List (Option Nat)) : Nat → Nat → Nat → Option Nat
  | 0, _, _ => none
  | fuel + 1, j, end_ =>
    if 0 < j then do
      let c ← bufGet str j
      if c = 10 then pure j
      else if c = 0 ∨ isBlank c then
        trimLoop str fuel (← szPred j) end_
      else pure end_
    else pure end_

/-- Lines 15-27: the reconstruction start `start` and the flag `new_line`. -/
def findStart (w : Nat) (xx : List Nat) : Option (Nat × Bool) := do
  let str_len := xx.length
  let start ← skipBlanks w xx str_len (str_len + 1) 0
  skipNewline w xx str_len start

/-- Lines 15-64: the value of `min_indent` when the copy loop starts. -/
def minIndent (w : Nat) (xx : List Nat) : Option Nat := do
  let str_len := xx.length
  let (start, new_line) ← findStart w xx
  let i ← if new_line then pure start else skipFirstLine w xx str_len (str_len + 1) start
  let (new_line, indent, min_indent) ← scanLoop w xx str_len (str_len + 1) i true 0 (2 ^ w - 1)
  pure (if new_line = true ∧ indent < min_indent then indent else min_indent)

/-- Lines 14-89: `j` and the buffer `str` after `str[j] = '\0'`. -/
def reconstruct (w : Nat) (xx : List Nat) : Option (Nat × List (Option Nat)) := do
  let str_len := xx.length
  let size ← szAdd w str_len 1
  let str := List.replicate size none
  let (start, _) ← findStart w xx
  let min_indent ← minIndent w xx
  let (j, str) ← copyLoop w xx str_len min_indent (str_len + 1) start true 0 str
  let str ← bufSet str j 0
  pure (j, str)

/-- The reconstructed text: the C string in `str` before the trailing trim. -/
def reconstructed (w : Nat) (xx : List Nat) : Option (List Nat) := do
  let (_, str) ← reconstruct w xx
  cString str

/-- Lines 12-104, the body of the loop of `trim_` for one string: the bytes
handed to `Rf_mkCharCE`. -/
def dedent (w : Nat) (xx : List Nat) : Option (List Nat) := do
  let (j, str) ← reconstruct w xx
  let end_ ← trimLoop str (j + 1) j j
  let str ← bufSet str end_ 0
  cString str

/-- Lines 6-110, `trim_`: the loop over `num` applies the body to every string of
the vector `x` and stores the result at the same index of `out`. -/
def trim_ (w : Nat) : List (List Nat) → Option (List (List Nat))
  | [] => some []
  | xx :: rest => do
    let s ← dedent w xx
    let out ← trim_ w rest
    pure (s :: out)

/-! ## Inputs

The strings the program can receive, and string literals as bytes. -/

/-- The bytes of an ASCII string literal. -/
def bytes (s : String) : List Nat := s.toList.map Char.toNat

/-- A C string holds no `0` byte. -/
def NulFree (xx : List Nat) : Prop := ∀ c ∈ xx, c ≠ 0

/-- The input and the output buffer, `str_len + 1` bytes each, lie in an
address space of `2 ^ w` bytes. -/
def Fits (w : Nat) (xx : List Nat) : Prop := 2 * (xx.length + 1) ≤ 2 ^ w

instance (l : List Nat) : Decidable (NulFree l) :=
  inferInstanceAs (Decidable (∀ c ∈ l, c ≠ 0))

instance (w : Nat) (l : List Nat) : Decidable (Fits w l) :=
  inferInstanceAs (Decidable (2 * (l.length + 1) ≤ 2 ^ w))

/-! ## The loops on lists

The same loops as functions of the bytes not yet read, without indices and
without the buffer.  The theorem `dedent_eq` shows that the program returns
`dedentL`; the proofs of the claims go through these functions. -/

/-- The values of `start` and `new_line` after lines 18-27, from the list of bytes. -/
def startL (xx : List Nat) : Nat × Bool :=
  let k := (xx.takeWhile isBlank).length
  if (xx.drop k).head? = some 10 then (k + 1, true) else (k, false)

/-- The loop of lines 45-60 as a function of the bytes not yet read. -/
def scanL : List Nat → Bool → Nat → Nat → Bool × Nat × Nat
  | [], new_line, indent, min_indent => (new_line, indent, min_indent)
  | c :: rest, new_line, indent, min_indent =>
    if c = 10 then scanL rest true indent min_indent
    else if new_line then
      if isBlank c then scanL rest new_line (indent + 1) min_indent
      else scanL rest false 0 (if indent < min_indent then indent else min_indent)
    else scanL rest new_line indent min_indent

/-- Lines 62-64: the last comparison of `indent` with `min_indent`. -/
def foldLast (r : Bool × Nat × Nat) : Nat :=
  if r.1 = true ∧ r.2.1 < r.2.2 then r.2.1 else r.2.2

/-- The value of `min_indent` after line 64, from the list of bytes. -/
def minIndentL (w : Nat) (xx : List Nat) : Nat :=
  let p := startL xx
  let i := if p.2 then p.1 else p.1 + ((xx.drop p.1).takeWhile (fun c => c != 10)).length
  let r := scanL (xx.drop i) true 0 (2 ^ w - 1)
  if r.1 = true ∧ r.2.1 < r.2.2 then r.2.1 else r.2.2

/-- The copy loop of lines 74-88 as a function of the bytes not yet read: the
bytes it appends to `str`. -/
def copyL (min_indent : Nat) : List Nat → Bool → List Nat
  | [], _ => []
  | c :: rest, new_line =>
    if c = 10 then c :: copyL min_indent rest true
    else if c = 92 ∧ rest.head? = some 10 then copyL min_indent (rest.drop 1) true
    else if new_line = true ∧ min_indent < rest.length + 1 ∧ isBlank c = true then
      (c :: rest).getD min_indent 0 :: copyL min_indent (rest.drop min_indent) false
    else c :: copyL min_indent rest false
termination_by l => l.length
decreasing_by
  all_goals simp_wf
  all_goals omega

/-- The buffer `str` with the bytes `out` written at its front and `n` cells not yet written. -/
def bufOf (out : List Nat) (n : Nat) : List (Option Nat) :=
  out.map some ++ List.replicate n none

/-- The reconstructed text (the bytes written by the copy loop), from the list of bytes. -/
def reconL (w : Nat) (xx : List Nat) : List Nat :=
  copyL (minIndentL w xx) (xx.drop (startL xx).1) true

/-- The loop of lines 93-102 on the reconstructed text `r`, with `str = r ++ [0]`:
the value of `end` for the counter `j`. -/
def trimEnd (r : List Nat) : Nat → Nat → Nat
  | 0, end_ => end_
  | j + 1, end_ =>
    if (r ++ [0]).getD (j + 1) 0 = 10 then j + 1
    else if (r ++ [0]).getD (j + 1) 0 = 0 ∨ isBlank ((r ++ [0]).getD (j + 1) 0) = true then
      trimEnd r j end_
    else end_

/-- The text left by lines 92-103 from the reconstructed text `r`. -/
def trimL (r : List Nat) : List Nat := r.take (trimEnd r r.length r.length)

/-- The result of `dedent`, from the list of bytes. -/
def dedentL (w : Nat) (xx : List Nat) : List Nat := trimL (reconL w xx)

/-- The text from the reconstruction start on: the input without the leading
blanks of the first line and without the newline that follows them. -/
def bodyL (xx : List Nat) : List Nat :=
  match xx.dropWhile isBlank with
  | [] => []
  | c :: t => if c = 10 then t else c :: t

/-- The text the measuring loop reads: from the first newline on. -/
def scanStartL (xx : List Nat) : List Nat :=
  match xx.dropWhile isBlank with
  | [] => []
  | c :: t => if c = 10 then t else (c :: t).dropWhile (fun c => c != 10)

/-! ## Shapes of texts

The conditions on inputs that the claims state. -/

/-- No byte of the list is a newline. -/
def NoNl (l : List Nat) : Prop := ∀ c ∈ l, c ≠ 10

/-- Every byte of the list is a space or a tab. -/
def AllBlank (l : List Nat) : Prop := ∀ c ∈ l, isBlank c = true

instance (l : List Nat) : Decidable (NoNl l) :=
  inferInstanceAs (Decidable (∀ c ∈ l, c ≠ 10))

instance (l : List Nat) : Decidable (AllBlank l) :=
  inferInstanceAs (Decidable (∀ c ∈ l, isBlank c = true))

/-- Some backslash of the list is immediately followed by a newline. -/
def hasEscape : List Nat → Bool
  | [] => false
  | c :: rest => (c == 92 && rest.head? == some 10) || hasEscape rest

/-- A line after the first, split into its leading blanks `l.1` and its content
`l.2`; as a piece of the input it is preceded by its newline. -/
def encLine (l : List Nat × List Nat) : List Nat := 10 :: (l.1 ++ l.2)

/-- The same line with `m` leading bytes removed. -/
def cutLine (m : Nat) (l : List Nat × List Nat) : List Nat := 10 :: (l.1.drop m ++ l.2)

/-- The text `L0 \n L1 \n ... \n Ln`. -/
def joinLines (L0 : List Nat) (lines : List (List Nat × List Nat)) : List Nat :=
  L0 ++ lines.flatMap encLine

/-- A last line that holds only blanks, when there is one, with its newline. -/
def lastLine : Option (List Nat) → List Nat
  | none => []
  | some ws => 10 :: ws

/-- The shape of a line after the first: `l.1` is blank, `l.2` holds no newline, is
not empty and does not start with a blank. -/
def LineOk (l : List Nat × List Nat) : Prop :=
  AllBlank l.1 ∧ NoNl l.2 ∧ l.2.head?.map isBlank = some false

instance (l : List Nat × List Nat) : Decidable (LineOk l) :=
  inferInstanceAs (Decidable (AllBlank l.1 ∧ NoNl l.2 ∧ l.2.head?.map isBlank = some false))

/-- The running minimum of lines 52-54 over the indents of the lines. -/
def minWith (min_indent : Nat) (lines : List (List Nat × List Nat)) : Nat :=
  lines.foldl (fun m l => if l.1.length < m then l.1.length else m) min_indent

/-- The list starts with a blank. -/
def startsBlank : List Nat → Bool
  | [] => false
  | c :: _ => isBlank c

/-- No newline of the list is followed by a blank: every line after the first has
a leading run of blanks of length zero. -/
def noIndent : List Nat → Bool
  | [] => true
  | c :: rest => (c != 10 || !startsBlank rest) && noIndent rest

/-- The text the claims C2 and C8 describe: the input without its leading run and
without its trailing run of blanks. -/
def stripBoth (xx : List Nat) : List Nat := (xx.dropWhile isBlank).rdropWhile isBlank

theorem szAdd_eq {w a b : Nat} (h : a + b < 2 ^ w) : szAdd w a b = some (a + b) := by
  simp [szAdd, h]

theorem skipBlanks_eq {w : Nat} {xx : List Nat} (hw : xx.length < 2 ^ w) :
    ∀ fuel start, start ≤ xx.length → xx.length - start < fuel →
    skipBlanks w xx xx.length fuel start
      = some (start + ((xx.drop start).takeWhile isBlank).length) := by
  intro fuel
  induction fuel with
  | zero => intro start _ h; omega
  | succ n ih =>
    intro start hs hf
    rw [skipBlanks]
    by_cases h : start < xx.length
    · have h1 : start + 1 < 2 ^ w := by omega
      rw [List.drop_eq_getElem_cons h]
      simp only [h, if_true, List.getElem?_eq_getElem h, Option.bind_eq_bind, Option.some_bind,
        szAdd_eq h1, List.takeWhile_cons]
      by_cases hb : isBlank xx[start] = true
      · simp only [hb, if_true, List.length_cons]
        rw [ih (start + 1) (by omega) (by omega)]
        congr 1; omega
      · simp [hb]
    · have : start = xx.length := by omega
      simp [this]

theorem skipFirstLine_eq {w : Nat} {xx : List Nat} (hw : xx.length < 2 ^ w) :
    ∀ fuel i, i ≤ xx.length → xx.length - i < fuel →
    skipFirstLine w xx xx.length fuel i
      = some (i + ((xx.drop i).takeWhile (fun c => c != 10)).length) := by
  intro fuel
  induction fuel with
  | zero => intro i _ h; omega
  | succ n ih =>
    intro i hs hf
    rw [skipFirstLine]
    by_cases h : i < xx.length
    · have h1 : i + 1 < 2 ^ w := by omega
      rw [List.drop_eq_getElem_cons h]
      simp only [h, if_true, List.getElem?_eq_getElem h, Option.bind_eq_bind, Option.some_bind,
        szAdd_eq h1, List.takeWhile_cons]
      by_cases hb : xx[i] = 10
      · simp [hb]
      · simp only [hb, ne_eq, not_false_eq_true, if_true, bne_iff_ne, List.length_cons]
        rw [ih (i + 1) (by omega) (by omega)]
        congr 1; omega
    · have : i = xx.length := by omega
      simp [this]

theorem scanLoop_eq {w : Nat} {xx : List Nat} (hw : xx.length < 2 ^ w) :
    ∀ fuel i new_line indent min_indent, i ≤ xx.length → xx.length - i < fuel → indent ≤ i →
    scanLoop w xx xx.length fuel i new_line indent min_indent
      = some (scanL (xx.drop i) new_line indent min_indent) := by
  intro fuel
  induction fuel with
  | zero => intro i _ _ _ _ h; omega
  | succ n ih =>
    intro i new_line indent min_indent hs hf hi
    rw [scanLoop]
    by_cases h : i < xx.length
    · have h1 : i + 1 < 2 ^ w := by omega
      have h2 : indent + 1 < 2 ^ w := by omega
      rw [List.drop_eq_getElem_cons h, scanL]
      simp only [h, if_true, List.getElem?_eq_getElem h, Option.bind_eq_bind, Option.some_bind,
        szAdd_eq h1, szAdd_eq h2]
      split_ifs <;> exact ih _ _ _ _ (by omega) (by omega) (by omega)
    · have : i = xx.length := by omega
      simp [this, scanL]

theorem startL_le (xx : List Nat) : (startL xx).1 ≤ xx.length := by
  unfold startL
  have h := List.takeWhile_append_dropWhile isBlank xx
  have hl := congrArg List.length h
  simp only [List.length_append] at hl
  by_cases hd : (xx.drop (xx.takeWhile isBlank).length).head? = some 10
  · simp only [hd, if_true]
    have : (xx.drop (xx.takeWhile isBlank).length).length ≠ 0 := by
      intro h0
      rw [List.length_eq_zero] at h0
      rw [h0] at hd; simp at hd
    simp only [List.length_drop] at this
    omega
  · simp only [hd, if_false]; omega

theorem findStart_eq {w : Nat} {xx : List Nat} (hw : xx.length < 2 ^ w) :
    findStart w xx = some (startL xx) := by
  unfold findStart startL
  simp only [Option.bind_eq_bind]
  rw [skipBlanks_eq hw _ 0 (by omega) (by omega)]
  simp only [List.drop_zero, Nat.zero_add, Option.some_bind]
  have hk : (xx.takeWhile isBlank).length ≤ xx.length := by
    have hl := congrArg List.length (List.takeWhile_append_dropWhile isBlank xx)
    simp only [List.length_append] at hl
    omega
  unfold skipNewline
  by_cases h : (xx.takeWhile isBlank).length < xx.length
  · have h1 : (xx.takeWhile isBlank).length + 1 < 2 ^ w := by omega
    rw [List.drop_eq_getElem_cons h]
    simp only [h, if_true, List.getElem?_eq_getElem h, Option.bind_eq_bind, Option.some_bind,
      szAdd_eq h1, List.head?_cons, Option.some.injEq]
    split_ifs <;> rfl
  · have : xx.drop (xx.takeWhile isBlank).length = [] := by
      apply List.drop_eq_nil_of_le; omega
    simp [h, this]

theorem minIndent_eq {w : Nat} {xx : List Nat} (hw : xx.length < 2 ^ w) :
    minIndent w xx = some (minIndentL w xx) := by
  unfold minIndent minIndentL
  have hs := startL_le xx
  simp only [Option.bind_eq_bind, findStart_eq hw, Option.some_bind]
  by_cases hn : (startL xx).2 = true
  · simp only [hn, if_true, Option.pure_def, Option.some_bind]
    rw [scanLoop_eq hw _ _ _ _ _ hs (by omega) (by omega)]
    simp
  · simp only [hn, if_false, Bool.false_eq_true]
    rw [skipFirstLine_eq hw _ _ hs (by omega)]
    simp only [Option.some_bind]
    have hk : (startL xx).1 + ((xx.drop (startL xx).1).takeWhile (fun c => c != 10)).length
        ≤ xx.length := by
      have hl := congrArg List.length
        (List.takeWhile_append_dropWhile (fun c => c != 10) (xx.drop (startL xx).1))
      simp only [List.length_append, List.length_drop] at hl
      omega
    rw [scanLoop_eq hw _ _ _ _ _ hk (by omega) (by omega)]
    simp

theorem bufSet_bufOf (out : List Nat) (n c : Nat) (h : 0 < n) :
    bufSet (bufOf out n) out.length c = some (bufOf (out ++ [c]) (n - 1)) := by
  obtain ⟨m, rfl⟩ : ∃ m, n = m + 1 := ⟨n - 1, by omega⟩
  simp [bufSet, bufOf, List.set_append, List.replicate_succ]

theorem isEscape_eq {w : Nat} {xx : List Nat} (hw : xx.length < 2 ^ w) {i : Nat}
    (h : i < xx.length) :
    isEscape w xx xx.length i
      = some (decide (xx[i] = 92 ∧ (xx.drop (i + 1)).head? = some 10)) := by
  unfold isEscape
  have h1 : i + 1 < 2 ^ w := by omega
  simp only [List.getElem?_eq_getElem h, Option.bind_eq_bind, Option.some_bind, szAdd_eq h1]
  by_cases hc : xx[i] = 92
  · simp only [hc, if_true, true_and]
    by_cases h2 : i + 1 < xx.length
    · rw [List.drop_eq_getElem_cons h2]
      simp [h2, List.getElem?_eq_getElem h2]
    · have : xx.drop (i + 1) = [] := List.drop_eq_nil_of_le (by omega)
      simp [h2, this]
  · simp [hc]

theorem skipIndent_eq {w : Nat} {xx : List Nat} {min_indent i : Nat}
    (hw : i + min_indent < 2 ^ w) (h : i < xx.length) :
    skipIndent w xx xx.length min_indent i
      = some (if min_indent < xx.length - i ∧ isBlank xx[i] = true then i + min_indent else i) := by
  unfold skipIndent
  simp only [szAdd_eq hw, Option.bind_eq_bind, Option.some_bind, List.getElem?_eq_getElem h]
  by_cases h1 : i + min_indent < xx.length
  · have h2 : min_indent < xx.length - i := by omega
    by_cases hb : isBlank xx[i] = true <;> simp [h1, h2, hb]
  · have h2 : ¬ min_indent < xx.length - i := by omega
    simp [h1, h2]

theorem copyLoop_eq {w : Nat} {xx : List Nat} {min_indent : Nat}
    (hw : xx.length + min_indent ≤ 2 ^ w) (hw1 : xx.length + 1 < 2 ^ w) :
    ∀ fuel i new_line out n, i ≤ xx.length → xx.length - i < fuel → xx.length - i < n →
      out.length + n = xx.length + 1 →
    copyLoop w xx xx.length min_indent fuel i new_line out.length (bufOf out n)
      = some ((out ++ copyL min_indent (xx.drop i) new_line).length,
          bufOf (out ++ copyL min_indent (xx.drop i) new_line)
            (n - (copyL min_indent (xx.drop i) new_line).length)) := by
  intro fuel
  induction fuel with
  | zero => intro i _ _ _ _ h; omega
  | succ k ih =>
    intro i new_line out n hs hf hn hlen
    rw [copyLoop]
    by_cases h : i < xx.length
    · have h1 : i + 1 < 2 ^ w := by omega
      have hj : out.length + 1 < 2 ^ w := by omega
      have hn0 : 0 < n := by omega
      have hlen1 : (out ++ [xx[i]]).length = out.length + 1 := by simp
      rw [List.drop_eq_getElem_cons h, copyL]
      simp only [h, if_true, List.getElem?_eq_getElem h, Option.bind_eq_bind, Option.some_bind,
        szAdd_eq h1, szAdd_eq hj, isEscape_eq (by omega : xx.length < 2 ^ w) h]
      by_cases h10 : xx[i] = 10
      · simp only [h10, if_true, bufSet_bufOf out n 10 hn0, Option.some_bind]
        have hl : (out ++ [10]).length = out.length + 1 := by simp
        rw [← hl, ih (i + 1) true (out ++ [10]) (n - 1) (by omega) (by omega) (by omega)
          (by rw [hl]; omega)]
        simp [Nat.sub_sub, Nat.add_comm]
      · simp only [h10, if_false]
        by_cases he : xx[i] = 92 ∧ (xx.drop (i + 1)).head? = some 10
        · have h2 : i + 1 < xx.length := by
            by_contra hc
            have : xx.drop (i + 1) = [] := List.drop_eq_nil_of_le (by omega)
            rw [this] at he; simp at he
          have h3 : i + 2 < 2 ^ w := by omega
          simp only [he, and_self, decide_True, if_true, szAdd_eq h3, Option.some_bind]
          rw [ih (i + 2) true out n (by omega) (by omega) (by omega) hlen, List.drop_drop]
        · simp only [he, decide_False, Bool.false_eq_true, if_false]
          have hrl : (xx.drop (i + 1)).length + 1 = xx.length - i := by
            simp only [List.length_drop]; omega
          rw [hrl]
          by_cases hnl : new_line = true
          · simp only [hnl, if_true, true_and]
            rw [skipIndent_eq (by omega) h]
            by_cases hsk : min_indent < xx.length - i ∧ isBlank xx[i] = true
            · have h4 : i + min_indent < xx.length := by omega
              have h5 : i + min_indent + 1 < 2 ^ w := by omega
              have hg : (xx[i] :: xx.drop (i + 1)).getD min_indent 0 = xx[i + min_indent] := by
                rw [← List.drop_eq_getElem_cons h, List.getD_eq_getElem?_getD,
                  List.getElem?_drop, List.getElem?_eq_getElem h4]
                rfl
              simp only [hsk, and_self, if_true, Option.some_bind, List.getElem?_eq_getElem h4,
                bufSet_bufOf out n _ hn0, szAdd_eq h5, hg, List.drop_drop]
              have hl : (out ++ [xx[i + min_indent]]).length = out.length + 1 := by simp
              rw [← hl, ih (i + min_indent + 1) false (out ++ [xx[i + min_indent]]) (n - 1)
                (by omega) (by omega) (by omega) (by rw [hl]; omega)]
              simp [Nat.sub_sub, Nat.add_comm, Nat.add_left_comm, Nat.add_assoc]
            · simp only [hsk, if_false, Option.some_bind, List.getElem?_eq_getElem h,
                bufSet_bufOf out n _ hn0, szAdd_eq h1]
              rw [← hlen1, ih (i + 1) false (out ++ [xx[i]]) (n - 1)
                (by omega) (by omega) (by omega) (by rw [hlen1]; omega)]
              simp [Nat.sub_sub, Nat.add_comm]
          · simp only [hnl, if_false, false_and, Option.some_bind,
              bufSet_bufOf out n _ hn0]
            have hnl2 : new_line = false := by simpa using hnl
            subst hnl2
            rw [← hlen1, ih (i + 1) false (out ++ [xx[i]]) (n - 1)
              (by omega) (by omega) (by omega) (by rw [hlen1]; omega)]
            simp [Nat.sub_sub, Nat.add_comm]
    · have : i = xx.length := by omega
      simp [this, copyL]

theorem drop_skip (c : Nat) (rest : List Nat) (m : Nat) (h : m < rest.length + 1) :
    (c :: rest).drop m = (c :: rest).getD m 0 :: rest.drop m := by
  have h' : m < (c :: rest).length := by simpa using h
  rw [List.drop_eq_getElem_cons h', List.getD_eq_getElem?_getD, List.getElem?_eq_getElem h']
  simp

theorem copyL_sublist (min_indent : Nat) (l : List Nat) (new_line : Bool) :
    List.Sublist (copyL min_indent l new_line) l := by
  induction l, new_line using copyL.induct min_indent with
  | case1 nl => rw [copyL]
  | case2 rest nl ih => rw [copyL]; simpa using ih
  | case3 c rest nl h1 h2 ih =>
    rw [copyL]; simp only [h1, h2, if_false, and_self, if_true]
    exact (ih.trans (List.drop_sublist 1 rest)).trans (List.sublist_cons_self _ rest)
  | case4 c rest nl h1 h2 h3 ih =>
    rw [copyL]; simp only [h1, h2, h3, if_false, and_self, if_true]
    have := drop_skip c rest min_indent h3.2.1
    exact ((List.Sublist.cons₂ _ ih).trans (this ▸ List.Sublist.refl _)).trans
      (List.drop_sublist min_indent (c :: rest))
  | case5 c rest nl h1 h2 h3 ih =>
    rw [copyL]; simp only [h1, h2, h3, if_false]
    exact List.Sublist.cons₂ _ ih

theorem bufGet_bufOf (s : List Nat) (n j : Nat) (h : j < s.length) :
    bufGet (bufOf s n) j = some (s.getD j 0) := by
  unfold bufGet bufOf
  rw [List.getElem?_append_left (by simpa using h), List.getElem?_map,
    List.getElem?_eq_getElem h, List.getD_eq_getElem?_getD, List.getElem?_eq_getElem h]
  rfl

theorem trimLoop_eq (r : List Nat) (n : Nat) :
    ∀ fuel j end_, j ≤ r.length → j < fuel →
      trimLoop (bufOf (r ++ [0]) n) fuel j end_ = some (trimEnd r j end_) := by
  intro fuel
  induction fuel with
  | zero => intro j _ _ h; omega
  | succ k ih =>
    intro j end_ hj hf
    rw [trimLoop]
    cases j with
    | zero => simp [trimEnd]
    | succ j =>
      rw [trimEnd]
      simp only [Nat.zero_lt_succ, if_true, Option.bind_eq_bind,
        bufGet_bufOf (r ++ [0]) n (j + 1) (by simp; omega), Option.some_bind]
      split_ifs
      · rfl
      · simp only [szPred, Nat.zero_lt_succ, if_true, Option.some_bind, Nat.add_sub_cancel]
        exact ih j end_ (by omega) (by omega)
      · rfl

theorem trimEnd_le (r : List Nat) : ∀ j end_, j ≤ r.length → end_ ≤ r.length →
    trimEnd r j end_ ≤ r.length := by
  intro j
  induction j with
  | zero => intro e _ he; simpa [trimEnd] using he
  | succ j ih =>
    intro e hj he
    rw [trimEnd]
    split_ifs
    · exact hj
    · exact ih e (by omega) he
    · exact he

theorem cString_map_some (a : List Nat) (t : List (Option Nat)) (h : NulFree a) :
    cString (a.map some ++ some 0 :: t) = some a := by
  induction a with
  | nil => simp [cString]
  | cons c a ih =>
    have hc : c ≠ 0 := h c (by simp)
    have ha : NulFree a := fun x hx => h x (by simp [hx])
    simp [cString, hc, ih ha]

theorem scanL_bound : ∀ (l : List Nat) (new_line : Bool) (indent min_indent K : Nat),
    indent + l.length ≤ K → (new_line = false → min_indent ≤ K) →
    (scanL l new_line indent min_indent).2.1 ≤ K ∧
      ((scanL l new_line indent min_indent).1 = false →
        (scanL l new_line indent min_indent).2.2 ≤ K) := by
  intro l
  induction l with
  | nil => intro nl ind mi K h1 h2; simpa [scanL] using ⟨h1, h2⟩
  | cons c rest ih =>
    intro nl ind mi K h1 h2
    simp only [List.length_cons] at h1
    rw [scanL]
    by_cases hc : c = 10
    · simp only [hc, if_true]
      exact ih true ind mi K (by omega) (by simp)
    · simp only [hc, if_false]
      by_cases hn : nl = true
      · subst hn
        simp only [if_true]
        by_cases hb : isBlank c = true
        · simp only [hb, if_true]
          exact ih true (ind + 1) mi K (by omega) (by simp)
        · simp only [hb, if_false]
          exact ih false 0 _ K (by omega) (by intro _; split_ifs <;> omega)
      · have hn' : nl = false := by simpa using hn
        subst hn'
        simp only [Bool.false_eq_true, if_false]
        exact ih false ind mi K (by omega) h2

theorem minIndentL_le (w : Nat) (xx : List Nat) :
    minIndentL w xx ≤ xx.length - (startL xx).1 := by
  unfold minIndentL
  simp only
  generalize hi : (if (startL xx).2 = true then (startL xx).1 else
    (startL xx).1 + ((xx.drop (startL xx).1).takeWhile (fun c => c != 10)).length) = i
  have hle : (startL xx).1 ≤ i := by
    rw [← hi]; split_ifs <;> omega
  have hb := scanL_bound (xx.drop i) true 0 (2 ^ w - 1) (xx.length - (startL xx).1)
    (by simp only [List.length_drop]; omega) (by simp)
  by_cases h1 : (scanL (xx.drop i) true 0 (2 ^ w - 1)).1 = true
  · split_ifs with h2
    · exact hb.1
    · simp only [h1, true_and, not_lt] at h2
      exact le_trans h2 hb.1
  · have h1' : (scanL (xx.drop i) true 0 (2 ^ w - 1)).1 = false := by simpa using h1
    simp only [h1', Bool.false_eq_true, false_and, if_false]
    exact hb.2 h1'

theorem reconL_sublist (w : Nat) (xx : List Nat) : List.Sublist (reconL w xx) xx :=
  (copyL_sublist _ _ _).trans (List.drop_sublist _ _)

theorem reconL_length_le (w : Nat) (xx : List Nat) :
    (reconL w xx).length ≤ xx.length - (startL xx).1 := by
  have := (copyL_sublist (minIndentL w xx) (xx.drop (startL xx).1) true).length_le
  simpa [reconL] using this

theorem reconL_nulFree {w : Nat} {xx : List Nat} (h : NulFree xx) : NulFree (reconL w xx) :=
  fun c hc => h c ((reconL_sublist w xx).subset hc)

theorem reconstruct_eq {w : Nat} {xx : List Nat} (hf : Fits w xx) :
    reconstruct w xx
      = some ((reconL w xx).length,
          bufOf (reconL w xx ++ [0]) (xx.length - (reconL w xx).length)) := by
  unfold Fits at hf
  have hw : xx.length < 2 ^ w := by omega
  have hw1 : xx.length + 1 < 2 ^ w := by omega
  have hm := minIndentL_le w xx
  have hs := startL_le xx
  have hr := reconL_length_le w xx
  unfold reconstruct
  simp only [Option.bind_eq_bind, szAdd_eq hw1, Option.some_bind, findStart_eq hw,
    minIndent_eq hw]
  have hb : List.replicate (xx.length + 1) (none : Option Nat) = bufOf [] (xx.length + 1) := by
    simp [bufOf]
  have h0 : (0 : Nat) = ([] : List Nat).length := rfl
  rw [hb]
  conv_lhs => rw [h0]
  rw [copyLoop_eq (by omega) hw1 _ _ _ _ _ hs (by omega) (by omega) (by simp)]
  simp only [List.nil_append, Option.some_bind]
  change (bufSet (bufOf (reconL w xx) (xx.length + 1 - (reconL w xx).length))
    (reconL w xx).length 0).bind _ = _
  rw [bufSet_bufOf _ _ _ (by omega)]
  simp only [Option.some_bind, Option.pure_def]
  congr 3
  omega

theorem reconstructed_eq {w : Nat} {xx : List Nat} (hf : Fits w xx) (hn : NulFree xx) :
    reconstructed w xx = some (reconL w xx) := by
  unfold reconstructed
  simp only [Option.bind_eq_bind, reconstruct_eq hf, Option.some_bind]
  unfold bufOf
  simp only [List.map_append, List.map_cons, List.map_nil, List.append_assoc,
    List.singleton_append]
  exact cString_map_some _ _ (reconL_nulFree hn)

theorem dedent_eq {w : Nat} {xx : List Nat} (hf : Fits w xx) (hn : NulFree xx) :
    dedent w xx = some (dedentL w xx) := by
  unfold dedent
  simp only [Option.bind_eq_bind, reconstruct_eq hf, Option.some_bind]
  rw [trimLoop_eq _ _ _ _ _ (le_refl _) (by omega)]
  simp only [Option.some_bind]
  unfold dedentL trimL
  have he := trimEnd_le (reconL w xx) _ _ (le_refl _) (le_refl _)
  generalize trimEnd (reconL w xx) (reconL w xx).length (reconL w xx).length = e at he ⊢
  have hset : bufSet (bufOf (reconL w xx ++ [0]) (xx.length - (reconL w xx).length)) e 0
      = some (((reconL w xx).take e).map some ++ some 0 ::
          (((reconL w xx ++ [0]).drop (e + 1)).map some
            ++ List.replicate (xx.length - (reconL w xx).length) none)) := by
    unfold bufSet bufOf
    have h1 : e < ((reconL w xx ++ [0]).map some).length := by simp; omega
    have h2 : e < ((reconL w xx ++ [0]).map some
        ++ List.replicate (xx.length - (reconL w xx).length) none).length := by
      simp; omega
    rw [if_pos h2, List.set_append, if_pos h1, List.set_eq_take_append_cons_drop, if_pos h1,
      ← List.map_take, ← List.map_drop, List.take_append_of_le_length he]
    simp
  rw [hset, Option.some_bind]
  exact cString_map_some _ _ (fun c hc => reconL_nulFree hn c (List.mem_of_mem_take hc))

/-! ### The measuring loop and the copy loop on lines -/

theorem isBlank_iff (c : Nat) : isBlank c = true ↔ c = 32 ∨ c = 9 := by
  simp [isBlank]

theorem hasEscape_cons_false {c : Nat} {rest : List Nat} (h : hasEscape (c :: rest) = false) :
    ¬ (c = 92 ∧ rest.head? = some 10) ∧ hasEscape rest = false := by
  simp only [hasEscape, Bool.or_eq_false_iff, Bool.and_eq_false_imp, beq_iff_eq] at h
  refine ⟨fun hc => ?_, h.2⟩
  have := h.1 hc.1
  simp [hc.2] at this

theorem hasEscape_append_right : ∀ (a b : List Nat), hasEscape (a ++ b) = false →
    hasEscape b = false := by
  intro a
  induction a with
  | nil => intro b h; simpa using h
  | cons c a ih =>
    intro b h
    exact ih b (hasEscape_cons_false (by simpa using h)).2

theorem hasEscape_drop (n : Nat) (l : List Nat) (h : hasEscape l = false) :
    hasEscape (l.drop n) = false := by
  have := List.take_append_drop n l
  exact hasEscape_append_right (l.take n) (l.drop n) (by rw [this]; exact h)

theorem scanL_seg : ∀ (s more : List Nat) (indent min_indent : Nat), NoNl s →
    scanL (s ++ more) false indent min_indent = scanL more false indent min_indent := by
  intro s
  induction s with
  | nil => intro more ind mi _; rfl
  | cons c s ih =>
    intro more ind mi h
    have hc : c ≠ 10 := h c (by simp)
    rw [List.cons_append, scanL]
    simp only [hc, if_false, Bool.false_eq_true]
    exact ih more ind mi (fun x hx => h x (by simp [hx]))

theorem scanL_blanks : ∀ (ws more : List Nat) (indent min_indent : Nat), AllBlank ws →
    scanL (ws ++ more) true indent min_indent
      = scanL more true (indent + ws.length) min_indent := by
  intro ws
  induction ws with
  | nil => intro more ind mi _; rfl
  | cons c ws ih =>
    intro more ind mi h
    have hb : isBlank c = true := h c (by simp)
    have hc : c ≠ 10 := by
      rcases (isBlank_iff c).1 hb with h1 | h1 <;> omega
    rw [List.cons_append, scanL]
    simp only [hc, if_false, if_true, hb]
    rw [ih more (ind + 1) mi (fun x hx => h x (by simp [hx]))]
    simp only [List.length_cons]
    congr 1; omega

/-- One line `ws ++ h :: c` with blank prefix `ws` and first content byte `h`, read
at a line start: the indent `indent + ws.length` is compared with `min_indent`. -/
theorem scanL_line (ws : List Nat) (h : Nat) (c more : List Nat) (indent min_indent : Nat)
    (hws : AllBlank ws) (hh : isBlank h = false) (hh10 : h ≠ 10) (hc : NoNl c) :
    scanL (ws ++ h :: c ++ more) true indent min_indent
      = scanL more false 0
          (if indent + ws.length < min_indent then indent + ws.length else min_indent) := by
  rw [List.append_assoc, scanL_blanks ws _ _ _ hws, List.cons_append, scanL]
  simp only [hh10, if_false, if_true, hh, Bool.false_eq_true]
  exact scanL_seg c more _ _ hc

theorem copyL_seg (min_indent : Nat) : ∀ (s more : List Nat), NoNl s →
    hasEscape (s ++ more) = false →
    copyL min_indent (s ++ more) false = s ++ copyL min_indent more false := by
  intro s
  induction s with
  | nil => intro more _ _; rfl
  | cons c s ih =>
    intro more h he
    have hc : c ≠ 10 := h c (by simp)
    have he' := hasEscape_cons_false (by simpa using he)
    rw [List.cons_append, copyL]
    simp only [hc, if_false, he'.1, Bool.false_eq_true, false_and]
    rw [ih more (fun x hx => h x (by simp [hx])) he'.2]
    rfl

/-- The first byte of a line is not blank: no indent is skipped. -/
theorem copyL_nonblank (min_indent h : Nat) (s more : List Nat) (hh : isBlank h = false)
    (hs : NoNl (h :: s)) (he : hasEscape (h :: s ++ more) = false) :
    copyL min_indent (h :: s ++ more) true = h :: s ++ copyL min_indent more false := by
  have hc : h ≠ 10 := hs h (by simp)
  have he' := hasEscape_cons_false (by simpa using he)
  rw [List.cons_append, copyL]
  simp only [hc, if_false, he'.1, hh, Bool.false_eq_true, and_false]
  rw [copyL_seg min_indent s more (fun x hx => hs x (by simp [hx])) he'.2]
  rfl

/-- A line `ws ++ c` with blank prefix `ws` of at least `min_indent` bytes and
non-empty content `c`, copied from a line start: `min_indent` bytes are dropped. -/
theorem copyL_line (min_indent : Nat) (ws c more : List Nat) (hws : AllBlank ws)
    (hc : c ≠ []) (hn : NoNl (ws ++ c)) (hm : min_indent ≤ ws.length)
    (he : hasEscape (ws ++ c ++ more) = false) :
    copyL min_indent (ws ++ c ++ more) true
      = ws.drop min_indent ++ c ++ copyL min_indent more false := by
  cases ws with
  | nil =>
    have hm0 : min_indent = 0 := by simpa using hm
    subst hm0
    cases c with
    | nil => exact absurd rfl hc
    | cons h c =>
      have h10 : h ≠ 10 := hn h (by simp)
      have he' := hasEscape_cons_false (by simpa using he)
      simp only [List.nil_append, List.drop_nil, List.cons_append]
      rw [copyL]
      simp only [h10, if_false, he'.1]
      have hseg := copyL_seg 0 c more (fun x hx => hn x (by simp [hx])) he'.2
      split_ifs
      · simp [hseg]
      · simp [hseg]
  | cons b ws =>
    have hb : isBlank b = true := hws b (by simp)
    have hb10 : b ≠ 10 := hn b (by simp)
    have hb92 : b ≠ 92 := by
      rcases (isBlank_iff b).1 hb with h1 | h1 <;> omega
    have hlen : min_indent < (ws ++ c ++ more).length + 1 := by
      have : 0 < c.length := List.length_pos.2 hc
      simp only [List.length_cons] at hm
      simp only [List.length_append]
      omega
    simp only [List.cons_append]
    rw [copyL]
    simp only [hb10, if_false, hb92, false_and, hlen, hb, and_self, if_true]
    have hsk := drop_skip b (ws ++ c ++ more) min_indent hlen
    have hd : (b :: (ws ++ c ++ more)).drop min_indent
        = (b :: ws).drop min_indent ++ c ++ more := by
      have : b :: (ws ++ c ++ more) = (b :: ws) ++ (c ++ more) := by simp
      rw [this, List.drop_append_of_le_length hm, List.append_assoc]
    rw [hd] at hsk
    have hsub : ∀ x ∈ (b :: ws).drop min_indent ++ c, x ≠ 10 := by
      intro x hx
      rcases List.mem_append.1 hx with h1 | h1
      · exact hn x (by
          have := List.mem_of_mem_drop h1
          simp only [List.cons_append, List.mem_cons, List.mem_append] at this ⊢
          tauto)
      · exact hn x (by simp [h1])
    have hne : (b :: ws).drop min_indent ++ c ≠ [] := by simp [hc]
    generalize (b :: ws).drop min_indent ++ c = seg at hsk hsub hne ⊢
    cases seg with
    | nil => exact absurd rfl hne
    | cons d s' =>
      simp only [List.cons_append, List.cons.injEq] at hsk
      have he2 : hasEscape (s' ++ more) = false := by
        rw [hsk.2]
        exact hasEscape_drop _ _ (hasEscape_cons_false (by simpa using he)).2
      rw [← hsk.1, ← hsk.2, copyL_seg min_indent s' more (fun x hx => hsub x (by simp [hx])) he2]
      rfl

/-! ### The reconstruction start -/

theorem drop_takeWhile_length (p : Nat → Bool) : ∀ (l : List Nat),
    l.drop (l.takeWhile p).length = l.dropWhile p := by
  intro l
  induction l with
  | nil => rfl
  | cons c l ih =>
    by_cases h : p c = true
    · simp [List.takeWhile_cons, List.dropWhile_cons, h, ih]
    · simp [List.takeWhile_cons, List.dropWhile_cons, h]

theorem drop_startL (xx : List Nat) : xx.drop (startL xx).1 = bodyL xx := by
  unfold startL bodyL
  simp only
  rw [drop_takeWhile_length]
  have hd := drop_takeWhile_length isBlank xx
  cases hx : xx.dropWhile isBlank with
  | nil =>
    rw [if_neg (by simp)]
    exact hd.trans hx
  | cons c t =>
    by_cases hc : c = 10
    · simp only [List.head?_cons, hc, if_true]
      have : xx.drop ((xx.takeWhile isBlank).length + 1)
          = (xx.drop (xx.takeWhile isBlank).length).drop 1 := by
        rw [List.drop_drop]
      rw [this, hd, hx]; rfl
    · simp only [List.head?_cons, Option.some.injEq, hc, if_false]
      rw [hd, hx]

theorem drop_scanStart (xx : List Nat) :
    xx.drop (if (startL xx).2 = true then (startL xx).1 else
      (startL xx).1 + ((xx.drop (startL xx).1).takeWhile (fun c => c != 10)).length)
      = scanStartL xx := by
  have hb := drop_startL xx
  by_cases h : (startL xx).2 = true
  · simp only [h, if_true, hb]
    unfold startL at h
    unfold bodyL scanStartL
    cases hx : xx.dropWhile isBlank with
    | nil => rfl
    | cons c t =>
      by_cases hc : c = 10
      · simp [hc]
      · exfalso
        simp only [drop_takeWhile_length, hx, List.head?_cons, Option.some.injEq, hc,
          if_false, Bool.false_eq_true] at h
  · rw [if_neg h, ← List.drop_drop, hb, drop_takeWhile_length]
    unfold startL at h
    unfold bodyL scanStartL
    cases hx : xx.dropWhile isBlank with
    | nil => rfl
    | cons c t =>
      by_cases hc : c = 10
      · exfalso
        simp [drop_takeWhile_length, hx, hc] at h
      · simp [hc]

theorem minIndentL_eq (w : Nat) (xx : List Nat) :
    minIndentL w xx = foldLast (scanL (scanStartL xx) true 0 (2 ^ w - 1)) := by
  unfold minIndentL foldLast
  simp only [drop_scanStart]

theorem reconL_eq (w : Nat) (xx : List Nat) :
    reconL w xx = copyL (minIndentL w xx) (bodyL xx) true := by
  unfold reconL
  rw [drop_startL]

/-! ### The trailing trim -/

theorem getD_append_right' (p t : List Nat) (i : Nat) (h : p.length ≤ i) :
    (p ++ t).getD i 0 = t.getD (i - p.length) 0 := by
  rw [List.getD_eq_getElem?_getD, List.getD_eq_getElem?_getD, List.getElem?_append_right h]

theorem getD_all (P : Nat → Prop) (t : List Nat) (h0 : P 0) (h : ∀ c ∈ t, P c) (i : Nat) :
    P (t.getD i 0) := by
  rw [List.getD_eq_getElem?_getD]
  cases hi : t[i]? with
  | none => simpa using h0
  | some c => simpa using h c (List.getElem?_mem hi)

/-- The backward loop passes every index whose byte is the terminator or a blank. -/
theorem trimEnd_skip (r : List Nat) (end_ j : Nat) : ∀ d : Nat,
    (∀ i, j < i → i ≤ j + d →
      (r ++ [0]).getD i 0 ≠ 10 ∧
        ((r ++ [0]).getD i 0 = 0 ∨ isBlank ((r ++ [0]).getD i 0) = true)) →
    trimEnd r (j + d) end_ = trimEnd r j end_ := by
  intro d
  induction d with
  | zero => intro _; rfl
  | succ d ih =>
    intro h
    have hd := h (j + d + 1) (by omega) (by omega)
    rw [← Nat.add_assoc, trimEnd]
    simp only [hd.1, if_false, hd.2, if_true]
    exact ih (fun i h1 h2 => h i h1 (by omega))

theorem trimEnd_tail (p ws : List Nat) (end_ : Nat) (hws : AllBlank ws) :
    trimEnd (p ++ ws) (p ++ ws).length end_ = trimEnd (p ++ ws) (p.length - 1) end_ := by
  have key : ∀ i, p.length ≤ i →
      (p ++ ws ++ [0]).getD i 0 ≠ 10 ∧
        ((p ++ ws ++ [0]).getD i 0 = 0 ∨ isBlank ((p ++ ws ++ [0]).getD i 0) = true) := by
    intro i hi
    rw [List.append_assoc, getD_append_right' p (ws ++ [0]) i hi]
    refine getD_all (fun c => c ≠ 10 ∧ (c = 0 ∨ isBlank c = true)) (ws ++ [0])
      ⟨by decide, Or.inl rfl⟩ ?_ _
    intro c hc
    rcases List.mem_append.1 hc with h1 | h1
    · have hb := hws c h1
      refine ⟨?_, Or.inr hb⟩
      rcases (isBlank_iff c).1 hb with h2 | h2 <;> omega
    · have : c = 0 := by simpa using h1
      subst this
      exact ⟨by decide, Or.inl rfl⟩
  have hlen : (p ++ ws).length = (p.length - 1) + ((p ++ ws).length - (p.length - 1)) := by
    simp only [List.length_append]; omega
  rw [hlen]
  apply trimEnd_skip
  intro i h1 _
  exact key i (by omega)

/-- The last newline of `r` is not its first byte and only blanks follow it: the
text is cut at that newline. -/
theorem trimL_cut (q ws : List Nat) (hq : q ≠ []) (hws : AllBlank ws) :
    trimL (q ++ 10 :: ws) = q := by
  unfold trimL
  have e : q ++ 10 :: ws = (q ++ [10]) ++ ws := by simp
  have hpos : 0 < q.length := List.length_pos.2 hq
  rw [e, trimEnd_tail (q ++ [10]) ws _ hws]
  obtain ⟨n, hn⟩ : ∃ n, q.length = n + 1 := ⟨q.length - 1, by omega⟩
  have h1 : (q ++ [10]).length - 1 = n + 1 := by simp [hn]
  have hg : (q ++ [10] ++ ws ++ [0]).getD (n + 1) 0 = 10 := by
    have : q ++ [10] ++ ws ++ [0] = q ++ (10 :: (ws ++ [0])) := by simp
    rw [this, getD_append_right' q _ (n + 1) (by omega), hn]
    simp
  rw [h1, trimEnd]
  simp only [hg, if_true]
  rw [← hn, List.append_assoc, List.take_left']
  rfl

/-- The byte before the trailing blanks is neither a newline nor a blank: nothing is cut. -/
theorem trimL_keep (q ws : List Nat) (x : Nat) (hws : AllBlank ws) (hx10 : x ≠ 10)
    (hx0 : x ≠ 0) (hxb : isBlank x = false) :
    trimL (q ++ x :: ws) = q ++ x :: ws := by
  unfold trimL
  have e : q ++ x :: ws = (q ++ [x]) ++ ws := by simp
  have hl : (q ++ x :: ws).length = ((q ++ [x]) ++ ws).length := by rw [e]
  suffices h : trimEnd (q ++ [x] ++ ws) (q ++ [x] ++ ws).length (q ++ [x] ++ ws).length
      = (q ++ [x] ++ ws).length by
    rw [e, h, List.take_length]
  rw [trimEnd_tail (q ++ [x]) ws _ hws]
  cases hq : q.length with
  | zero =>
    have : (q ++ [x]).length - 1 = 0 := by simp [hq]
    rw [this, trimEnd]
  | succ n =>
    have h1 : (q ++ [x]).length - 1 = n + 1 := by simp [hq]
    have hg : (q ++ [x] ++ ws ++ [0]).getD (n + 1) 0 = x := by
      have : q ++ [x] ++ ws ++ [0] = q ++ (x :: (ws ++ [0])) := by simp
      rw [this, getD_append_right' q _ (n + 1) (by omega), hq]
      simp
    rw [h1, trimEnd]
    simp only [hg, hx10, if_false, hx0, hxb, Bool.false_eq_true, or_self]

/-- Only blanks follow the first byte: nothing is cut. -/
theorem trimL_short (x : Nat) (ws : List Nat) (hws : AllBlank ws) :
    trimL (x :: ws) = x :: ws := by
  unfold trimL
  have e : x :: ws = [x] ++ ws := rfl
  rw [e, trimEnd_tail [x] ws _ hws]
  simp [trimEnd]

theorem trimL_nil : trimL [] = [] := rfl

/-! ### Texts made of lines -/

theorem LineOk.content {l : List Nat × List Nat} (h : LineOk l) :
    ∃ x c, l.2 = x :: c ∧ isBlank x = false ∧ x ≠ 10 ∧ NoNl c := by
  obtain ⟨_, h2, h3⟩ := h
  cases hl : l.2 with
  | nil => rw [hl] at h3; simp at h3
  | cons x c =>
    rw [hl] at h2 h3
    refine ⟨x, c, rfl, by simpa using h3, h2 x (by simp), fun y hy => h2 y (by simp [hy])⟩

theorem AllBlank.noNl {ws : List Nat} (h : AllBlank ws) : NoNl ws := by
  intro c hc
  rcases (isBlank_iff c).1 (h c hc) with h1 | h1 <;> omega

theorem scanL_newline (t : List Nat) (new_line : Bool) (indent min_indent : Nat) :
    scanL (10 :: t) new_line indent min_indent = scanL t true indent min_indent := by
  rw [scanL]; simp

theorem scanL_lines : ∀ (lines : List (List Nat × List Nat)) (tail : List Nat)
    (new_line : Bool) (min_indent : Nat), (∀ l ∈ lines, LineOk l) →
    scanL (lines.flatMap encLine ++ tail) new_line 0 min_indent
      = scanL tail (if lines = [] then new_line else false) 0 (minWith min_indent lines) := by
  intro lines
  induction lines with
  | nil => intro tail nl mi _; rfl
  | cons l ls ih =>
    intro tail nl mi h
    obtain ⟨x, c, hc, hx, hx10, hcn⟩ := (h l (by simp)).content
    have hws := (h l (by simp)).1
    have e : (l :: ls).flatMap encLine ++ tail
        = 10 :: (l.1 ++ x :: c ++ (ls.flatMap encLine ++ tail)) := by
      simp [List.flatMap_cons, encLine, hc]
    rw [e, scanL_newline, scanL_line l.1 x c _ 0 mi hws hx hx10 hcn,
      ih tail false _ (fun l' hl' => h l' (by simp [hl']))]
    simp [minWith]

theorem minWith_spec : ∀ (lines : List (List Nat × List Nat)) (min_indent : Nat),
    minWith min_indent lines ≤ min_indent ∧
      (∀ l ∈ lines, minWith min_indent lines ≤ l.1.length) ∧
      (minWith min_indent lines = min_indent ∨
        ∃ l ∈ lines, minWith min_indent lines = l.1.length) := by
  intro lines
  induction lines with
  | nil => intro mi; simp [minWith]
  | cons l ls ih =>
    intro mi
    have e : minWith mi (l :: ls)
        = minWith (if l.1.length < mi then l.1.length else mi) ls := rfl
    have hm' : (if l.1.length < mi then l.1.length else mi) ≤ mi ∧
        (if l.1.length < mi then l.1.length else mi) ≤ l.1.length ∧
        ((if l.1.length < mi then l.1.length else mi) = mi ∨
          (if l.1.length < mi then l.1.length else mi) = l.1.length) := by
      split_ifs <;> omega
    rw [e]
    generalize (if l.1.length < mi then l.1.length else mi) = m' at hm' ⊢
    obtain ⟨h1, h2, h3⟩ := ih m'
    refine ⟨by omega, ?_, ?_⟩
    · intro l' hl'
      rcases List.mem_cons.1 hl' with h | h
      · subst h; omega
      · exact h2 l' h
    · rcases h3 with h | ⟨l', hl', h⟩
      · rcases hm'.2.2 with h4 | h4
        · left; omega
        · right; exact ⟨l, by simp, by omega⟩
      · right; exact ⟨l', by simp [hl'], h⟩

theorem minWith_eq (lines : List (List Nat × List Nat)) (min_indent m : Nat)
    (hle : ∀ l ∈ lines, m ≤ l.1.length) (hex : ∃ l ∈ lines, l.1.length = m)
    (hm : m ≤ min_indent) : minWith min_indent lines = m := by
  obtain ⟨_, h2, h3⟩ := minWith_spec lines min_indent
  obtain ⟨l0, hl0, hl0m⟩ := hex
  have hup := h2 l0 hl0
  rcases h3 with h | ⟨l', hl', h⟩
  · omega
  · have := hle l' hl'; omega

theorem copyL_newline (min_indent : Nat) (t : List Nat) (new_line : Bool) :
    copyL min_indent (10 :: t) new_line = 10 :: copyL min_indent t true := by
  rw [copyL]; simp

theorem copyL_nil (min_indent : Nat) (new_line : Bool) : copyL min_indent [] new_line = [] := by
  rw [copyL]

theorem copyL_lines (m : Nat) : ∀ (lines : List (List Nat × List Nat)) (tail : List Nat)
    (new_line : Bool), (∀ l ∈ lines, LineOk l) → (∀ l ∈ lines, m ≤ l.1.length) →
    hasEscape (lines.flatMap encLine ++ tail) = false →
    copyL m (lines.flatMap encLine ++ tail) new_line
      = lines.flatMap (cutLine m) ++ copyL m tail (if lines = [] then new_line else false) := by
  intro lines
  induction lines with
  | nil => intro tail nl _ _ _; rfl
  | cons l ls ih =>
    intro tail nl h hm he
    obtain ⟨x, c, hc, hx, hx10, hcn⟩ := (h l (by simp)).content
    have hws := (h l (by simp)).1
    have e : (l :: ls).flatMap encLine ++ tail
        = 10 :: (l.1 ++ l.2 ++ (ls.flatMap encLine ++ tail)) := by
      simp [List.flatMap_cons, encLine]
    have hn : NoNl (l.1 ++ l.2) := by
      intro y hy
      rcases List.mem_append.1 hy with h1 | h1
      · exact hws.noNl y h1
      · exact (h l (by simp)).2.1 y h1
    rw [e] at he ⊢
    have he1 := (hasEscape_cons_false he).2
    have he2 : hasEscape (ls.flatMap encLine ++ tail) = false :=
      hasEscape_append_right _ _ he1
    rw [copyL_newline, copyL_line m l.1 l.2 _ hws (by rw [hc]; simp) hn (hm l (by simp)) he1,
      ih tail false (fun l' hl' => h l' (by simp [hl'])) (fun l' hl' => hm l' (by simp [hl']))
        he2]
    simp [List.flatMap_cons, cutLine]

theorem dropWhile_append_of_exists (p : Nat → Bool) : ∀ (a b : List Nat),
    (∃ c ∈ a, p c = false) → (a ++ b).dropWhile p = a.dropWhile p ++ b := by
  intro a
  induction a with
  | nil => intro b h; simp at h
  | cons c a ih =>
    intro b h
    by_cases hc : p c = true
    · have h' : ∃ c ∈ a, p c = false := by
        obtain ⟨x, hx, hpx⟩ := h
        rcases List.mem_cons.1 hx with h1 | h1
        · subst h1; rw [hc] at hpx; cases hpx
        · exact ⟨x, h1, hpx⟩
      simp [List.dropWhile_cons, hc, ih b h']
    · simp [List.dropWhile_cons, hc]

theorem dropWhile_head (p : Nat → Bool) (a : List Nat) (h : ∃ c ∈ a, p c = false) :
    ∃ x s, a.dropWhile p = x :: s ∧ p x = false := by
  cases hd : a.dropWhile p with
  | nil =>
    obtain ⟨c, hc, hpc⟩ := h
    have := List.dropWhile_eq_nil_iff.1 hd c hc
    rw [this] at hpc; cases hpc
  | cons x s =>
    refine ⟨x, s, rfl, ?_⟩
    have := List.head_dropWhile_not p a (by rw [hd]; simp)
    simpa [hd] using this

theorem dropWhile_noNl_append : ∀ (a b : List Nat), NoNl a →
    (a ++ b).dropWhile (fun c => c != 10) = b.dropWhile (fun c => c != 10) := by
  intro a
  induction a with
  | nil => intro b _; rfl
  | cons c a ih =>
    intro b h
    have hc : c ≠ 10 := h c (by simp)
    simp only [List.cons_append, List.dropWhile_cons, bne_iff_ne, ne_eq, hc, not_false_eq_true,
      if_true]
    exact ih b (fun x hx => h x (by simp [hx]))

/-- The first line holds a byte that is not blank: the text starts at that byte. -/
theorem bodyL_first (L0 rest : List Nat) (hn : NoNl L0) (hx : ∃ c ∈ L0, isBlank c = false) :
    bodyL (L0 ++ rest) = L0.dropWhile isBlank ++ rest := by
  unfold bodyL
  rw [dropWhile_append_of_exists isBlank L0 rest hx]
  obtain ⟨x, s, hd, _⟩ := dropWhile_head isBlank L0 hx
  have hx10 : x ≠ 10 := hn x ((List.dropWhile_sublist isBlank).subset (by rw [hd]; simp))
  rw [hd]
  simp [hx10]

theorem scanStartL_first (L0 rest : List Nat) (hn : NoNl L0)
    (hx : ∃ c ∈ L0, isBlank c = false) :
    scanStartL (L0 ++ rest) = rest.dropWhile (fun c => c != 10) := by
  unfold scanStartL
  rw [dropWhile_append_of_exists isBlank L0 rest hx]
  obtain ⟨x, s, hd, _⟩ := dropWhile_head isBlank L0 hx
  have hsub : NoNl (x :: s) := fun y hy =>
    hn y ((List.dropWhile_sublist isBlank).subset (by rw [hd]; exact hy))
  have hx10 : x ≠ 10 := hsub x (by simp)
  rw [hd]
  simp only [List.cons_append, hx10, if_false]
  exact dropWhile_noNl_append (x :: s) rest hsub

theorem flatMap_encLine_dropWhile (lines : List (List Nat × List Nat)) :
    (lines.flatMap encLine).dropWhile (fun c => c != 10) = lines.flatMap encLine := by
  cases lines with
  | nil => simp
  | cons l ls => simp [List.flatMap_cons, encLine]

theorem foldLast_false (indent min_indent : Nat) :
    foldLast (false, indent, min_indent) = min_indent := by
  simp [foldLast]

theorem length_le_of_mem_lines {L0 : List Nat} {lines : List (List Nat × List Nat)}
    {l : List Nat × List Nat} (hl : l ∈ lines) :
    l.1.length + l.2.length + 1 ≤ (joinLines L0 lines).length := by
  unfold joinLines
  induction lines with
  | nil => simp at hl
  | cons a ls ih =>
    rcases List.mem_cons.1 hl with h | h
    · subst h
      simp only [List.flatMap_cons, encLine, List.length_append, List.length_cons]
      omega
    · have := ih h
      simp only [List.flatMap_cons, List.length_append] at this ⊢
      omega

/-- The minimum indent of a text whose later lines all have content. -/
theorem minIndentL_lines (w : Nat) (L0 : List Nat) (lines : List (List Nat × List Nat))
    (m : Nat) (hf : Fits w (joinLines L0 lines)) (hne : lines ≠ []) (hn : NoNl L0)
    (hx : ∃ c ∈ L0, isBlank c = false) (hl : ∀ l ∈ lines, LineOk l)
    (hle : ∀ l ∈ lines, m ≤ l.1.length) (hex : ∃ l ∈ lines, l.1.length = m) :
    minIndentL w (joinLines L0 lines) = m := by
  have hm : m ≤ 2 ^ w - 1 := by
    obtain ⟨l, hl1, hl2⟩ := hex
    have := @length_le_of_mem_lines L0 _ _ hl1
    unfold Fits at hf
    omega
  rw [minIndentL_eq]
  unfold joinLines
  rw [scanStartL_first L0 _ hn hx, flatMap_encLine_dropWhile]
  have := scanL_lines lines [] true (2 ^ w - 1) hl
  rw [List.append_nil] at this
  rw [this, if_neg hne, scanL, foldLast_false]
  exact minWith_eq lines _ m hle hex hm

theorem hasEscape_dropWhile (p : Nat → Bool) (l : List Nat) (h : hasEscape l = false) :
    hasEscape (l.dropWhile p) = false := by
  have := List.takeWhile_append_dropWhile p l
  exact hasEscape_append_right (l.takeWhile p) _ (by rw [this]; exact h)

/-- The reconstructed text of a text whose later lines all have content. -/
theorem reconL_lines (w : Nat) (L0 : List Nat) (lines : List (List Nat × List Nat))
    (m : Nat) (hf : Fits w (joinLines L0 lines)) (hne : lines ≠ []) (hn : NoNl L0)
    (hx : ∃ c ∈ L0, isBlank c = false) (hl : ∀ l ∈ lines, LineOk l)
    (he : hasEscape (joinLines L0 lines) = false)
    (hle : ∀ l ∈ lines, m ≤ l.1.length) (hex : ∃ l ∈ lines, l.1.length = m) :
    reconL w (joinLines L0 lines) = L0.dropWhile isBlank ++ lines.flatMap (cutLine m) := by
  rw [reconL_eq, minIndentL_lines w L0 lines m hf hne hn hx hl hle hex]
  unfold joinLines at he ⊢
  rw [bodyL_first L0 _ hn hx]
  have he' : hasEscape (L0.dropWhile isBlank ++ lines.flatMap encLine) = false := by
    rw [← dropWhile_append_of_exists isBlank L0 _ hx]
    exact hasEscape_dropWhile _ _ he
  obtain ⟨x, s, hd, hxb⟩ := dropWhile_head isBlank L0 hx
  have hsub : NoNl (x :: s) := fun y hy =>
    hn y ((List.dropWhile_sublist isBlank).subset (by rw [hd]; exact hy))
  rw [hd] at he' ⊢
  rw [copyL_nonblank m x s _ hxb hsub he']
  have h2 := copyL_lines m lines [] false hl hle
    (by rw [List.append_nil]; exact hasEscape_append_right _ _ he')
  rw [List.append_nil] at h2
  rw [h2, copyL_nil, List.append_nil]

theorem lines_last (m : Nat) (lines : List (List Nat × List Nat)) (hne : lines ≠ [])
    (hl : ∀ l ∈ lines, LineOk l) :
    ∃ A B c, c ≠ [] ∧ NoNl c ∧ lines.flatMap encLine = A ++ c ∧
      lines.flatMap (cutLine m) = B ++ c := by
  have hd := List.dropLast_append_getLast hne
  have hok := hl (lines.getLast hne) (List.getLast_mem hne)
  obtain ⟨x, c, hc, _, _, _⟩ := hok.content
  refine ⟨lines.dropLast.flatMap encLine ++ 10 :: (lines.getLast hne).1,
    lines.dropLast.flatMap (cutLine m) ++ 10 :: (lines.getLast hne).1.drop m,
    (lines.getLast hne).2, by rw [hc]; simp, hok.2.1, ?_, ?_⟩
  · conv_lhs => rw [← hd]
    simp [List.flatMap_append, encLine]
  · conv_lhs => rw [← hd]
    simp [List.flatMap_append, cutLine]

/-- The text ends in a byte that is neither blank nor a newline: nothing is cut. -/
theorem trimL_last (r : List Nat) (y : Nat) (h : r.getLast? = some y) (hy10 : y ≠ 10)
    (hy0 : y ≠ 0) (hyb : isBlank y = false) : trimL r = r := by
  obtain ⟨q, rfl⟩ := List.getLast?_eq_some_iff.1 h
  exact trimL_keep q [] y (by intro c hc; simp at hc) hy10 hy0 hyb

theorem dedentL_lines (w : Nat) (L0 : List Nat) (lines : List (List Nat × List Nat))
    (m : Nat) (hf : Fits w (joinLines L0 lines)) (hz : NulFree (joinLines L0 lines))
    (hne : lines ≠ []) (hn : NoNl L0)
    (hx : ∃ c ∈ L0, isBlank c = false) (hl : ∀ l ∈ lines, LineOk l)
    (he : hasEscape (joinLines L0 lines) = false)
    (hlast : ∀ c, (joinLines L0 lines).getLast? = some c → isBlank c = false)
    (hle : ∀ l ∈ lines, m ≤ l.1.length) (hex : ∃ l ∈ lines, l.1.length = m) :
    dedentL w (joinLines L0 lines) = L0.dropWhile isBlank ++ lines.flatMap (cutLine m) := by
  unfold dedentL
  rw [reconL_lines w L0 lines m hf hne hn hx hl he hle hex]
  obtain ⟨A, B, c, hc, hcn, hA, hB⟩ := lines_last m lines hne hl
  obtain ⟨y, hy⟩ : ∃ y, c.getLast? = some y := by
    cases h : c.getLast? with
    | none => exact absurd (List.getLast?_eq_none_iff.1 h) hc
    | some y => exact ⟨y, rfl⟩
  have hyc : y ∈ c := List.mem_of_getLast?_eq_some hy
  have hxl : (joinLines L0 lines).getLast? = some y := by
    unfold joinLines
    rw [hA, ← List.append_assoc, List.getLast?_append_of_ne_nil _ hc, hy]
  have hy0 : y ≠ 0 := hz y (by
    unfold joinLines; rw [hA]; simp [hyc])
  apply trimL_last _ y _ (hcn y hyc) hy0 (hlast y hxl)
  rw [hB, ← List.append_assoc, List.getLast?_append_of_ne_nil _ hc, hy]

/-! ### Claim C1 -/

/-- C1. For an input `L0 \n L1 \n ... \n Ln` with `n >= 1` in which `L0` holds no
newline and holds a byte that is not blank, every later line is a run of blanks
followed by content that holds no newline, is not empty and does not start with a
blank, no backslash is immediately followed by a newline and the last byte is not
blank, `dedent` returns `L0` without its leading blanks followed by every later
line with exactly `m` leading bytes removed, `m` being the least length of the blank
runs, the lines joined by newlines in their order. -/
theorem dedent_lines (w : Nat) (L0 : List Nat) (lines : List (List Nat × List Nat))
    (m : Nat) (hf : Fits w (joinLines L0 lines)) (hz : NulFree (joinLines L0 lines))
    (hne : lines ≠ []) (hn : NoNl L0)
    (hx : ∃ c ∈ L0, isBlank c = false) (hl : ∀ l ∈ lines, LineOk l)
    (he : hasEscape (joinLines L0 lines) = false)
    (hlast : ∀ c, (joinLines L0 lines).getLast? = some c → isBlank c = false)
    (hle : ∀ l ∈ lines, m ≤ l.1.length) (hex : ∃ l ∈ lines, l.1.length = m) :
    dedent w (joinLines L0 lines)
      = some (L0.dropWhile isBlank ++ lines.flatMap (cutLine m)) := by
  rw [dedent_eq hf hz, dedentL_lines w L0 lines m hf hz hne hn hx hl he hlast hle hex]

/-- The two instances of C1: `"  hello\n    world\n    foo"` gives
`"hello\nworld\nfoo"` and `"hello\n  world\n    foo"` gives `"hello\nworld\n  foo"`. -/
theorem dedent_lines_witness :
    (joinLines (bytes "  hello") [(bytes "    ", bytes "world"), (bytes "    ", bytes "foo")]
        = bytes "  hello\n    world\n    foo" ∧
      dedent 64 (joinLines (bytes "  hello")
          [(bytes "    ", bytes "world"), (bytes "    ", bytes "foo")])
        = some (bytes "hello\nworld\nfoo")) ∧
    (joinLines (bytes "hello") [(bytes "  ", bytes "world"), (bytes "    ", bytes "foo")]
        = bytes "hello\n  world\n    foo" ∧
      dedent 64 (joinLines (bytes "hello")
          [(bytes "  ", bytes "world"), (bytes "    ", bytes "foo")])
        = some (bytes "hello\nworld\n  foo")) :=
  ⟨⟨by decide, dedent_lines 64 (bytes "  hello")
      [(bytes "    ", bytes "world"), (bytes "    ", bytes "foo")] 4
      (by decide) (by decide) (by decide) (by decide) (by decide) (by decide) (by decide)
      (by decide) (by decide) (by decide)⟩,
   ⟨by decide, dedent_lines 64 (bytes "hello")
      [(bytes "  ", bytes "world"), (bytes "    ", bytes "foo")] 2
      (by decide) (by decide) (by decide) (by decide) (by decide) (by decide) (by decide)
      (by decide) (by decide) (by decide)⟩⟩

/-! ### Claim C2 -/

theorem NoNl.hasEscape : ∀ {l : List Nat}, NoNl l → hasEscape l = false := by
  intro l
  induction l with
  | nil => intro _; rfl
  | cons c l ih =>
    intro h
    have hl : NoNl l := fun x hx => h x (by simp [hx])
    have hh : l.head? ≠ some 10 := by
      intro hc
      cases l with
      | nil => simp at hc
      | cons d l =>
        simp only [List.head?_cons, Option.some.injEq] at hc
        exact h d (by simp) hc
    simp [Glue.hasEscape, ih hl, hh]

/-- With `min_indent = 0` the copy loop only drops the backslash-newline pairs. -/
theorem copyL_zero : ∀ (l : List Nat) (new_line : Bool), hasEscape l = false →
    copyL 0 l new_line = l := by
  intro l
  induction l with
  | nil => intro nl _; rw [copyL]
  | cons c l ih =>
    intro nl he
    have he' := hasEscape_cons_false he
    rw [copyL]
    simp only [he'.1, if_false, List.getD_cons_zero, List.drop_zero]
    split_ifs <;> simp [ih _ he'.2]

theorem trimEnd_noNl (r : List Nat) (hr : NoNl r) (end_ : Nat) : ∀ j : Nat,
    trimEnd r j end_ = end_ := by
  intro j
  induction j with
  | zero => rfl
  | succ j ih =>
    have h10 : (r ++ [0]).getD (j + 1) 0 ≠ 10 := by
      refine getD_all (fun c => c ≠ 10) (r ++ [0]) (by decide) ?_ _
      intro c hc
      rcases List.mem_append.1 hc with h1 | h1
      · exact hr c h1
      · have : c = 0 := by simpa using h1
        omega
    rw [trimEnd]
    simp only [h10, if_false, ih]
    split_ifs <;> rfl

theorem trimL_noNl (r : List Nat) (hr : NoNl r) : trimL r = r := by
  unfold trimL
  rw [trimEnd_noNl r hr, List.take_length]

theorem foldLast_true_zero (min_indent : Nat) : foldLast (true, 0, min_indent) = 0 := by
  unfold foldLast
  simp only [true_and]
  split_ifs <;> omega

theorem dropWhile_ne_nl_of_noNl : ∀ {l : List Nat}, NoNl l →
    l.dropWhile (fun c => c != 10) = [] := by
  intro l h
  rw [List.dropWhile_eq_nil_iff]
  intro x hx
  simpa using h x hx

theorem NoNl.dropWhile {l : List Nat} (h : NoNl l) (p : Nat → Bool) : NoNl (l.dropWhile p) :=
  fun c hc => h c ((List.dropWhile_sublist p).subset hc)

theorem bodyL_noNl {xx : List Nat} (h : NoNl xx) : bodyL xx = xx.dropWhile isBlank := by
  unfold bodyL
  cases hd : xx.dropWhile isBlank with
  | nil => rfl
  | cons c t =>
    have : c ≠ 10 := h.dropWhile isBlank c (by rw [hd]; simp)
    simp [this]

theorem scanStartL_noNl {xx : List Nat} (h : NoNl xx) : scanStartL xx = [] := by
  unfold scanStartL
  cases hd : xx.dropWhile isBlank with
  | nil => rfl
  | cons c t =>
    have hn : NoNl (c :: t) := hd ▸ h.dropWhile isBlank
    have : c ≠ 10 := hn c (by simp)
    simp only [this, if_false]
    exact dropWhile_ne_nl_of_noNl hn

theorem dedentL_noNl (w : Nat) {xx : List Nat} (h : NoNl xx) :
    dedentL w xx = xx.dropWhile isBlank := by
  have hm : minIndentL w xx = 0 := by
    rw [minIndentL_eq, scanStartL_noNl h, scanL, foldLast_true_zero]
  unfold dedentL
  rw [reconL_eq, hm, bodyL_noNl h, copyL_zero _ _ (h.dropWhile isBlank).hasEscape]
  exact trimL_noNl _ (h.dropWhile isBlank)

/-- C2, the claim as stated fails: on `"   trim me   "` the trailing blanks stay. -/
theorem dedent_single_line_counterexample :
    dedent 64 (bytes "   trim me   ") = some (bytes "trim me   ") ∧
      dedent 64 (bytes "   trim me   ") ≠ some (bytes "trim me") ∧
      dedent 64 (bytes "   trim me   ") ≠ some (stripBoth (bytes "   trim me   ")) := by
  decide

/-- C2 as amended. For an input without a newline `dedent` returns the input with
its leading run of blanks removed and nothing else changed; trailing blanks stay. -/
theorem dedent_single_line (w : Nat) (xx : List Nat) (hf : Fits w xx) (hz : NulFree xx)
    (hn : NoNl xx) : dedent w xx = some (xx.dropWhile isBlank) := by
  rw [dedent_eq hf hz, dedentL_noNl w hn]

/-- The instance of C2 as amended: `"   trim me   "` gives `"trim me   "`. -/
theorem dedent_single_line_witness :
    dedent 64 (bytes "   trim me   ") = some (bytes "trim me   ") :=
  dedent_single_line 64 (bytes "   trim me   ") (by decide) (by decide) (by decide)

/-! ### Claim C3 -/

theorem trimL_allBlank (r : List Nat) (h : AllBlank r) : trimL r = r := by
  cases r with
  | nil => rfl
  | cons x ws => exact trimL_short x ws (fun c hc => h c (by simp [hc]))

/-- C3, the claim as stated fails: `"a\n  b   "` gives `"a\nb   "`, which ends with a
space, and for `"  \n  "` the reconstructed text is two spaces and so is the output. -/
theorem dedent_trailing_counterexample :
    dedent 64 (bytes "a\n  b   ") = some (bytes "a\nb   ") ∧
      dedent 64 (bytes "a\n  b   ") ≠ some (bytes "a\nb") ∧
      (bytes "a\nb   ").getLast? = some 32 ∧
      reconstructed 64 (bytes "  \n  ") = some (bytes "  ") ∧
      dedent 64 (bytes "  \n  ") = some (bytes "  ") := by
  decide

/-- C3 as amended. With `r` the reconstructed text: when `r` is `q`, a newline and a
run of blanks, with `q` not empty, the output is `q`; when `r` ends in a run of
blanks (maybe empty) that follows a byte that is neither a newline nor a blank, or
when `r` holds only blanks, the output is `r` unchanged. -/
theorem dedent_trailing (w : Nat) (xx : List Nat) (hf : Fits w xx) (hz : NulFree xx) :
    ∃ r, reconstructed w xx = some r ∧
      (∀ q ws, r = q ++ 10 :: ws → q ≠ [] → AllBlank ws → dedent w xx = some q) ∧
      (∀ q x ws, r = q ++ x :: ws → AllBlank ws → x ≠ 10 → isBlank x = false →
        dedent w xx = some r) ∧
      (AllBlank r → dedent w xx = some r) := by
  refine ⟨reconL w xx, reconstructed_eq hf hz, ?_, ?_, ?_⟩
  · intro q ws hr hq hws
    rw [dedent_eq hf hz, dedentL, hr, trimL_cut q ws hq hws]
  · intro q x ws hr hws hx10 hxb
    have hx0 : x ≠ 0 := reconL_nulFree hz x (by rw [hr]; simp)
    rw [dedent_eq hf hz, dedentL, hr, trimL_keep q ws x hws hx10 hx0 hxb]
  · intro hr
    rw [dedent_eq hf hz, dedentL, trimL_allBlank _ hr]

/-- The theorem of C3 at `"a\n  b\n   "`, whose reconstructed text is `"a\nb\n "`. -/
theorem dedent_trailing_witness :
    ∃ r, reconstructed 64 (bytes "a\n  b\n   ") = some r ∧
      (∀ q ws, r = q ++ 10 :: ws → q ≠ [] → AllBlank ws →
        dedent 64 (bytes "a\n  b\n   ") = some q) ∧
      (∀ q x ws, r = q ++ x :: ws → AllBlank ws → x ≠ 10 → isBlank x = false →
        dedent 64 (bytes "a\n  b\n   ") = some r) ∧
      (AllBlank r → dedent 64 (bytes "a\n  b\n   ") = some r) :=
  dedent_trailing 64 (bytes "a\n  b\n   ") (by decide) (by decide)

/-! ### Claim C4 -/

theorem hasEscape_cons (c : Nat) (t : List Nat) :
    hasEscape (c :: t) = ((c == 92 && t.head? == some 10) || hasEscape t) := rfl

theorem hasEscape_append : ∀ (a b : List Nat),
    hasEscape (a ++ b)
      = (hasEscape a || (a.getLast? == some 92 && b.head? == some 10) || hasEscape b) := by
  intro a
  induction a with
  | nil => intro b; simp [hasEscape]
  | cons c a ih =>
    intro b
    cases a with
    | nil => simp [hasEscape]
    | cons d a =>
      rw [List.cons_append, hasEscape_cons, ih b, hasEscape_cons c (d :: a),
        List.getLast?_cons_cons]
      simp only [List.cons_append, List.head?_cons, Bool.or_assoc]

theorem hasEscape_newline (t : List Nat) : hasEscape (10 :: t) = hasEscape t := by
  simp [hasEscape]

theorem head?_flatMap_encLine (lines : List (List Nat × List Nat)) :
    (lines.flatMap encLine).head? = if lines = [] then none else some 10 := by
  cases lines with
  | nil => rfl
  | cons l ls => simp [List.flatMap_cons, encLine]

theorem head?_flatMap_cutLine (m : Nat) (lines : List (List Nat × List Nat)) :
    (lines.flatMap (cutLine m)).head? = if lines = [] then none else some 10 := by
  cases lines with
  | nil => rfl
  | cons l ls => simp [List.flatMap_cons, cutLine]

theorem hasEscape_cutLines (m : Nat) : ∀ (lines : List (List Nat × List Nat)),
    (∀ l ∈ lines, LineOk l) → hasEscape (lines.flatMap encLine) = false →
    hasEscape (lines.flatMap (cutLine m)) = false := by
  intro lines
  induction lines with
  | nil => intro _ _; rfl
  | cons l ls ih =>
    intro hl he
    obtain ⟨x, c, hc, _, _, _⟩ := (hl l (by simp)).content
    have hne : l.2 ≠ [] := by rw [hc]; simp
    have e1 : (l :: ls).flatMap encLine = 10 :: ((l.1 ++ l.2) ++ ls.flatMap encLine) := by
      simp [List.flatMap_cons, encLine]
    have e2 : (l :: ls).flatMap (cutLine m)
        = 10 :: ((l.1.drop m ++ l.2) ++ ls.flatMap (cutLine m)) := by
      simp [List.flatMap_cons, cutLine]
    rw [e1, hasEscape_newline, hasEscape_append] at he
    simp only [Bool.or_eq_false_iff] at he
    obtain ⟨⟨h1, h2⟩, h3⟩ := he
    have h1' : hasEscape (l.1.drop m ++ l.2) = false := by
      apply hasEscape_append_right (l.1.take m)
      rw [← List.append_assoc, List.take_append_drop]
      exact h1
    have hlast : (l.1.drop m ++ l.2).getLast? = (l.1 ++ l.2).getLast? := by
      rw [List.getLast?_append_of_ne_nil _ hne, List.getLast?_append_of_ne_nil _ hne]
    rw [e2, hasEscape_newline, hasEscape_append, h1', hlast, head?_flatMap_cutLine,
      ← head?_flatMap_encLine, h2, ih (fun l' hl' => hl l' (by simp [hl'])) h3]
    rfl

theorem dropWhile_of_head (p : Nat → Bool) (x : Nat) (s : List Nat) (h : p x = false) :
    (x :: s).dropWhile p = x :: s := by
  simp [List.dropWhile_cons, h]

theorem dedentL_sublist (w : Nat) (xx : List Nat) : List.Sublist (dedentL w xx) xx :=
  (List.take_sublist _ _).trans (reconL_sublist w xx)

/-- On the texts of `dedentL_lines` a second pass changes nothing. -/
theorem dedentL_lines_twice (w : Nat) (L0 : List Nat) (lines : List (List Nat × List Nat))
    (m : Nat) (hf : Fits w (joinLines L0 lines)) (hz : NulFree (joinLines L0 lines))
    (hne : lines ≠ []) (hn : NoNl L0)
    (hx : ∃ c ∈ L0, isBlank c = false) (hl : ∀ l ∈ lines, LineOk l)
    (he : hasEscape (joinLines L0 lines) = false)
    (hlast : ∀ c, (joinLines L0 lines).getLast? = some c → isBlank c = false)
    (hle : ∀ l ∈ lines, m ≤ l.1.length) (hex : ∃ l ∈ lines, l.1.length = m) :
    Fits w (dedentL w (joinLines L0 lines)) ∧ NulFree (dedentL w (joinLines L0 lines)) ∧
      dedentL w (dedentL w (joinLines L0 lines)) = dedentL w (joinLines L0 lines) := by
  have hsub := dedentL_sublist w (joinLines L0 lines)
  have hf' : Fits w (dedentL w (joinLines L0 lines)) := by
    have := hsub.length_le
    unfold Fits at hf ⊢
    omega
  have hz' : NulFree (dedentL w (joinLines L0 lines)) := fun c hc => hz c (hsub.subset hc)
  refine ⟨hf', hz', ?_⟩
  have hout := dedentL_lines w L0 lines m hf hz hne hn hx hl he hlast hle hex
  rw [hout] at hf' hz' ⊢
  have hmap : lines.flatMap (cutLine m)
      = (lines.map (fun l => (l.1.drop m, l.2))).flatMap encLine := by
    rw [List.flatMap_map]; rfl
  obtain ⟨x, s, hd, hxb⟩ := dropWhile_head isBlank L0 hx
  have hn' : NoNl (L0.dropWhile isBlank) := hn.dropWhile isBlank
  have hx' : ∃ c ∈ L0.dropWhile isBlank, isBlank c = false := ⟨x, by rw [hd]; simp, hxb⟩
  have hjoin : L0.dropWhile isBlank ++ lines.flatMap (cutLine m)
      = joinLines (L0.dropWhile isBlank) (lines.map (fun l => (l.1.drop m, l.2))) := by
    unfold joinLines; rw [hmap]
  have hl' : ∀ l ∈ lines.map (fun l => (l.1.drop m, l.2)), LineOk l := by
    intro l' hl1
    obtain ⟨l, hl2, rfl⟩ := List.mem_map.1 hl1
    exact ⟨fun c hc => (hl l hl2).1 c (List.mem_of_mem_drop hc), (hl l hl2).2⟩
  have he0 : hasEscape (L0.dropWhile isBlank ++ lines.flatMap encLine) = false := by
    rw [← dropWhile_append_of_exists isBlank L0 _ hx]
    exact hasEscape_dropWhile _ _ he
  have he' : hasEscape (L0.dropWhile isBlank ++ lines.flatMap (cutLine m)) = false := by
    rw [hasEscape_append] at he0 ⊢
    simp only [Bool.or_eq_false_iff] at he0
    obtain ⟨⟨h1, h2⟩, h3⟩ := he0
    rw [h1, head?_flatMap_cutLine, ← head?_flatMap_encLine, h2, hasEscape_cutLines m lines hl h3]
    rfl
  obtain ⟨A, B, c, hc, hcn, hA, hB⟩ := lines_last m lines hne hl
  have hlast' : ∀ y, (L0.dropWhile isBlank ++ lines.flatMap (cutLine m)).getLast? = some y →
      isBlank y = false := by
    intro y hy
    apply hlast y
    unfold joinLines
    rw [hB, ← List.append_assoc, List.getLast?_append_of_ne_nil _ hc] at hy
    rw [hA, ← List.append_assoc, List.getLast?_append_of_ne_nil _ hc, hy]
  have hex' : ∃ l ∈ lines.map (fun l => (l.1.drop m, l.2)), l.1.length = 0 := by
    obtain ⟨l, hl1, hl2⟩ := hex
    exact ⟨(l.1.drop m, l.2), List.mem_map.2 ⟨l, hl1, rfl⟩, by simp [hl2]⟩
  rw [hjoin] at hf' hz' he' hlast' ⊢
  rw [dedentL_lines w _ _ 0 hf' hz' (by simpa using hne) hn' hx' hl' he' hlast'
    (fun _ _ => Nat.zero_le _) hex']
  unfold joinLines
  rw [hd, dropWhile_of_head isBlank x s hxb]
  congr 1

/-- C4, the claim as stated fails: `"\n  a\n b"` gives `" a\nb"`, and `" a\nb"` gives
`"a\nb"`. -/
theorem dedent_idempotent_counterexample :
    dedent 64 (bytes "\n  a\n b") = some (bytes " a\nb") ∧
      dedent 64 (bytes " a\nb") = some (bytes "a\nb") ∧
      (dedent 64 (bytes "\n  a\n b")).bind (dedent 64) ≠ dedent 64 (bytes "\n  a\n b") := by
  decide

/-- C4 as amended. On the inputs of C1 (first line with a byte that is not blank,
every later line a run of blanks and then content, no backslash before a newline,
last byte not blank) a second pass of `dedent` returns what the first pass returned. -/
theorem dedent_idempotent_lines (w : Nat) (L0 : List Nat)
    (lines : List (List Nat × List Nat)) (m : Nat)
    (hf : Fits w (joinLines L0 lines)) (hz : NulFree (joinLines L0 lines))
    (hne : lines ≠ []) (hn : NoNl L0)
    (hx : ∃ c ∈ L0, isBlank c = false) (hl : ∀ l ∈ lines, LineOk l)
    (he : hasEscape (joinLines L0 lines) = false)
    (hlast : ∀ c, (joinLines L0 lines).getLast? = some c → isBlank c = false)
    (hle : ∀ l ∈ lines, m ≤ l.1.length) (hex : ∃ l ∈ lines, l.1.length = m) :
    (dedent w (joinLines L0 lines)).bind (dedent w) = dedent w (joinLines L0 lines) := by
  obtain ⟨hf', hz', h⟩ := dedentL_lines_twice w L0 lines m hf hz hne hn hx hl he hlast hle hex
  rw [dedent_eq hf hz, Option.some_bind, dedent_eq hf' hz', h]

/-- The theorem of C4 at `" a\n   b\n  c d"`. -/
theorem dedent_idempotent_lines_witness :
    (dedent 64 (joinLines (bytes " a") [(bytes "   ", bytes "b"), (bytes "  ", bytes "c d")])).bind
        (dedent 64)
      = dedent 64 (joinLines (bytes " a") [(bytes "   ", bytes "b"), (bytes "  ", bytes "c d")]) :=
  dedent_idempotent_lines 64 (bytes " a") [(bytes "   ", bytes "b"), (bytes "  ", bytes "c d")] 2
    (by decide) (by decide) (by decide) (by decide) (by decide) (by decide) (by decide)
    (by decide) (by decide) (by decide)

/-! ### Claim C5 -/

theorem dedentL_length_le (w : Nat) (xx : List Nat) :
    (dedentL w xx).length ≤ xx.length - (startL xx).1 := by
  have h1 := reconL_length_le w xx
  have h2 : (dedentL w xx).length ≤ (reconL w xx).length := by
    unfold dedentL trimL
    exact (List.take_sublist _ _).length_le
  omega

/-- C5. The output of `dedent` is at most as long as the input, more precisely at
most `len - start` bytes with `start` the reconstruction start, and the empty input
gives the empty output. -/
theorem dedent_length_le (w : Nat) (xx : List Nat) (hf : Fits w xx) (hz : NulFree xx) :
    ∃ start new_line out, findStart w xx = some (start, new_line) ∧
      dedent w xx = some out ∧ out.length ≤ xx.length - start ∧
      out.length ≤ xx.length ∧ (xx = [] → out = []) := by
  have hw : xx.length < 2 ^ w := by unfold Fits at hf; omega
  have hlen := dedentL_length_le w xx
  refine ⟨(startL xx).1, (startL xx).2, dedentL w xx, findStart_eq hw, dedent_eq hf hz, hlen,
    by omega, ?_⟩
  intro h
  apply List.eq_nil_of_length_eq_zero
  have h0 : xx.length = 0 := by rw [h]; rfl
  omega

/-- The theorem of C5 at the empty input, and the value there. -/
theorem dedent_length_le_witness :
    (∃ start new_line out, findStart 64 [] = some (start, new_line) ∧
      dedent 64 [] = some out ∧ out.length ≤ ([] : List Nat).length - start ∧
      out.length ≤ ([] : List Nat).length ∧ (([] : List Nat) = [] → out = [])) ∧
    dedent 64 [] = some [] :=
  ⟨dedent_length_le 64 [] (by decide) (by decide), by decide⟩

/-! ### Claim C6 -/

theorem dropWhile_allBlank_append : ∀ (a b : List Nat), AllBlank a →
    (a ++ b).dropWhile isBlank = b.dropWhile isBlank := by
  intro a
  induction a with
  | nil => intro b _; rfl
  | cons c a ih =>
    intro b h
    have hc : isBlank c = true := h c (by simp)
    simp only [List.cons_append, List.dropWhile_cons, hc, if_true]
    exact ih b (fun x hx => h x (by simp [hx]))

theorem allBlank_or_exists (l : List Nat) : AllBlank l ∨ ∃ c ∈ l, isBlank c = false := by
  by_cases h : AllBlank l
  · exact Or.inl h
  · right
    unfold AllBlank at h
    push_neg at h
    obtain ⟨c, hc, hb⟩ := h
    exact ⟨c, hc, by simpa using hb⟩

/-- The measuring loop starts after the first line, whatever that line holds. -/
theorem scanL_scanStartL (L0 R : List Nat) (hn : NoNl L0)
    (hR : R = [] ∨ ∃ t, R = 10 :: t) (indent min_indent : Nat) :
    scanL (scanStartL (L0 ++ R)) true indent min_indent = scanL R true indent min_indent := by
  rcases allBlank_or_exists L0 with hb | hx
  · unfold scanStartL
    rw [dropWhile_allBlank_append L0 R hb]
    rcases hR with rfl | ⟨t, rfl⟩
    · rfl
    · have : isBlank 10 = false := by decide
      simp only [List.dropWhile_cons, this, Bool.false_eq_true, if_false, if_true]
      rw [scanL_newline]
  · rw [scanStartL_first L0 R hn hx]
    rcases hR with rfl | ⟨t, rfl⟩
    · rfl
    · simp

theorem flatMap_encLine_shape (lines : List (List Nat × List Nat)) (last : Option (List Nat)) :
    lines.flatMap encLine ++ lastLine last = [] ∨
      ∃ t, lines.flatMap encLine ++ lastLine last = 10 :: t := by
  cases lines with
  | nil =>
    cases last with
    | none => left; rfl
    | some ws => right; exact ⟨ws, rfl⟩
  | cons l ls =>
    right
    exact ⟨l.1 ++ l.2 ++ (ls.flatMap encLine ++ lastLine last), by
      simp [List.flatMap_cons, encLine]⟩

theorem scanL_lastLine (ws : List Nat) (hws : AllBlank ws) (new_line : Bool)
    (min_indent : Nat) :
    scanL (lastLine (some ws)) new_line 0 min_indent = (true, ws.length, min_indent) := by
  have := scanL_blanks ws [] 0 min_indent hws
  rw [List.append_nil] at this
  rw [lastLine, scanL_newline, this, scanL, Nat.zero_add]

/-- The minimum indent of a text whose later lines, but for a last line of blanks,
all have content. -/
theorem minIndentL_lines_last (w : Nat) (L0 : List Nat) (lines : List (List Nat × List Nat))
    (last : Option (List Nat)) (m : Nat)
    (hf : Fits w (joinLines L0 lines ++ lastLine last)) (hn : NoNl L0)
    (hl : ∀ l ∈ lines, LineOk l) (hlast : ∀ ws ∈ last, AllBlank ws)
    (hle : ∀ k ∈ lines.map (fun l => l.1.length) ++ last.toList.map List.length, m ≤ k)
    (hex : m ∈ lines.map (fun l => l.1.length) ++ last.toList.map List.length) :
    minIndentL w (joinLines L0 lines ++ lastLine last) = m := by
  have hle1 : ∀ l ∈ lines, m ≤ l.1.length := fun l h =>
    hle _ (List.mem_append.2 (Or.inl (List.mem_map.2 ⟨l, h, rfl⟩)))
  have hlen1 : ∀ l ∈ lines, l.1.length + 1 ≤ (joinLines L0 lines ++ lastLine last).length := by
    intro l h
    have := @length_le_of_mem_lines L0 _ _ h
    simp only [List.length_append]
    omega
  unfold Fits at hf
  rw [minIndentL_eq]
  unfold joinLines at hf hlen1 ⊢
  rw [List.append_assoc, scanL_scanStartL L0 _ hn (flatMap_encLine_shape lines last),
    scanL_lines lines _ true _ hl]
  obtain ⟨s1, s2, s3⟩ := minWith_spec lines (2 ^ w - 1)
  cases last with
  | none =>
    simp only [Option.toList, List.map_nil, List.append_nil, List.mem_map] at hex
    obtain ⟨l0, hl0, hl0m⟩ := hex
    have hne : lines ≠ [] := List.ne_nil_of_mem hl0
    have := hlen1 l0 hl0
    rw [if_neg hne, lastLine, scanL, foldLast_false]
    exact minWith_eq lines _ m hle1 ⟨l0, hl0, hl0m⟩ (by omega)
  | some ws =>
    have hws : AllBlank ws := hlast ws rfl
    have hmw : m ≤ ws.length := hle _ (by simp [Option.toList])
    have hwl : ws.length + 1 ≤ (L0 ++ (lines.flatMap encLine ++ lastLine (some ws))).length := by
      simp only [List.length_append, lastLine, List.length_cons]; omega
    rw [List.append_assoc] at hf
    rw [scanL_lastLine ws hws]
    unfold foldLast
    simp only [true_and]
    have hlow : m ≤ minWith (2 ^ w - 1) lines := by
      rcases s3 with h | ⟨l', hl', h⟩
      · omega
      · have := hle1 l' hl'; omega
    simp only [Option.toList, List.map_cons, List.map_nil, List.mem_append, List.mem_map,
      List.mem_singleton] at hex
    rcases hex with ⟨l0, hl0, hl0m⟩ | h
    · have := s2 l0 hl0
      split_ifs <;> omega
    · split_ifs <;> omega

theorem noIndent_cons {c : Nat} {rest : List Nat} (h : noIndent (c :: rest) = true) :
    (c = 10 → startsBlank rest = false) ∧ noIndent rest = true := by
  simp only [noIndent, Bool.and_eq_true, Bool.or_eq_true, bne_iff_ne, ne_eq,
    Bool.not_eq_true'] at h
  refine ⟨fun hc => ?_, h.2⟩
  rcases h.1 with h1 | h1
  · exact absurd hc h1
  · exact h1

theorem noIndent_append_right : ∀ (a b : List Nat), noIndent (a ++ b) = true →
    noIndent b = true := by
  intro a
  induction a with
  | nil => intro b h; exact h
  | cons c a ih => intro b h; exact ih b (noIndent_cons (by simpa using h)).2

/-- No line starts with a blank and there is no backslash-newline pair: the copy
loop copies every byte. -/
theorem copyL_noIndent (min_indent : Nat) : ∀ (l : List Nat) (new_line : Bool),
    hasEscape l = false → noIndent l = true → (new_line = true → startsBlank l = false) →
    copyL min_indent l new_line = l := by
  intro l
  induction l with
  | nil => intro nl _ _ _; rw [copyL]
  | cons c rest ih =>
    intro nl he hi hs
    have he' := hasEscape_cons_false he
    have hi' := noIndent_cons hi
    rw [copyL]
    by_cases hc : c = 10
    · simp only [hc, if_true]
      rw [ih true he'.2 hi'.2 (fun _ => hi'.1 hc)]
    · have hsk : ¬ (nl = true ∧ min_indent < rest.length + 1 ∧ isBlank c = true) := by
        rintro ⟨h1, _, h3⟩
        have := hs h1
        simp only [startsBlank] at this
        rw [this] at h3
        cases h3
      simp only [hc, if_false, he'.1, hsk]
      rw [ih false he'.2 hi'.2 (fun h => by cases h)]

theorem bodyL_suffix (xx : List Nat) : ∃ a, xx = a ++ bodyL xx := by
  rw [← drop_startL]
  exact ⟨xx.take (startL xx).1, (List.take_append_drop _ _).symm⟩

theorem startsBlank_bodyL (xx : List Nat) (hi : noIndent xx = true) :
    startsBlank (bodyL xx) = false := by
  have hsplit := List.takeWhile_append_dropWhile isBlank xx
  unfold bodyL
  cases hd : xx.dropWhile isBlank with
  | nil => rfl
  | cons c t =>
    have hcb : isBlank c = false := by
      have := List.head_dropWhile_not isBlank xx (by rw [hd]; simp)
      simpa [hd] using this
    by_cases hc : c = 10
    · simp only [hc, if_true]
      rw [hd] at hsplit
      have := noIndent_append_right _ _ (by rw [hsplit]; exact hi)
      exact (noIndent_cons this).1 hc
    · simp only [hc, if_false, startsBlank, hcb]

/-- Every text is a part `p` that is empty or ends in a byte that is not blank,
followed by a run of blanks. -/
theorem trailing_blanks (r : List Nat) :
    ∃ p ws, r = p ++ ws ∧ AllBlank ws ∧ (p = [] ∨ ∃ q x, p = q ++ [x] ∧ isBlank x = false) := by
  induction r using List.reverseRecOn with
  | nil => exact ⟨[], [], rfl, by intro c hc; simp at hc, Or.inl rfl⟩
  | append_singleton r y ih =>
    by_cases hy : isBlank y = true
    · obtain ⟨p, ws, hr, hws, hp⟩ := ih
      refine ⟨p, ws ++ [y], by rw [hr, List.append_assoc], ?_, hp⟩
      intro c hc
      rcases List.mem_append.1 hc with h | h
      · exact hws c h
      · have : c = y := by simpa using h
        rw [this]; exact hy
    · exact ⟨r ++ [y], [], by simp, by intro c hc; simp at hc,
        Or.inr ⟨r, y, rfl, by simpa using hy⟩⟩

/-- The trailing trim of a text in which no line starts with a blank: a last
newline is cut unless it is the only byte. -/
theorem trimL_noIndent (r : List Nat) (hz : NulFree r) (hi : noIndent r = true) :
    trimL r = if r.getLast? = some 10 ∧ 2 ≤ r.length then r.dropLast else r := by
  obtain ⟨p, ws, hr, hws, hp⟩ := trailing_blanks r
  rcases hp with rfl | ⟨q, x, rfl, hxb⟩
  · have hall : AllBlank r := by rw [hr]; simpa using hws
    have hne : ¬ (r.getLast? = some 10 ∧ 2 ≤ r.length) := by
      rintro ⟨h, _⟩
      have := hall 10 (List.mem_of_getLast?_eq_some h)
      exact absurd this (by decide)
    rw [if_neg hne, trimL_allBlank r hall]
  · by_cases hx : x = 10
    · subst hx
      have hws0 : ws = [] := by
        cases ws with
        | nil => rfl
        | cons b ws =>
          exfalso
          have h1 : noIndent (10 :: b :: ws) = true :=
            noIndent_append_right q _ (by rw [hr, List.append_assoc] at hi; exact hi)
          have h2 := (noIndent_cons h1).1 rfl
          simp only [startsBlank] at h2
          rw [hws b (by simp)] at h2
          cases h2
      subst hws0
      rw [List.append_nil] at hr
      subst hr
      cases q with
      | nil => decide
      | cons y q =>
        have hlen : 2 ≤ (y :: q ++ [10]).length := by simp
        rw [if_pos ⟨by rw [List.getLast?_concat], hlen⟩, List.dropLast_concat]
        exact trimL_cut (y :: q) [] (by simp) (by intro c hc; simp at hc)
    · have hx0 : x ≠ 0 := hz x (by rw [hr]; simp)
      have e : r = q ++ x :: ws := by rw [hr]; simp
      have hkeep := trimL_keep q ws x hws hx hx0 hxb
      rw [← e] at hkeep
      have hne : ¬ (r.getLast? = some 10 ∧ 2 ≤ r.length) := by
        rintro ⟨h, _⟩
        rw [hr] at h
        cases ws using List.reverseRecOn with
        | nil =>
          rw [List.append_nil, List.getLast?_concat] at h
          exact hx (by simpa using h)
        | append_singleton ws y _ =>
          rw [← List.append_assoc, List.getLast?_concat] at h
          have hy : y = 10 := by simpa using h
          have := hws y (by simp)
          rw [hy] at this
          exact absurd this (by decide)
      rw [if_neg hne, hkeep]

theorem dedentL_noIndent (w : Nat) (xx : List Nat) (hz : NulFree xx)
    (he : hasEscape xx = false) (hi : noIndent xx = true) :
    reconL w xx = bodyL xx ∧
      dedentL w xx = if (bodyL xx).getLast? = some 10 ∧ 2 ≤ (bodyL xx).length
        then (bodyL xx).dropLast else bodyL xx := by
  obtain ⟨a, ha⟩ := bodyL_suffix xx
  have he' : hasEscape (bodyL xx) = false := hasEscape_append_right a _ (by rw [← ha]; exact he)
  have hi' : noIndent (bodyL xx) = true := noIndent_append_right a _ (by rw [← ha]; exact hi)
  have hz' : NulFree (bodyL xx) := fun c hc => hz c (by rw [ha]; simp [hc])
  have hr : reconL w xx = bodyL xx := by
    rw [reconL_eq, copyL_noIndent _ _ _ he' hi' (fun _ => startsBlank_bodyL xx hi)]
  refine ⟨hr, ?_⟩
  unfold dedentL
  rw [hr, trimL_noIndent _ hz' hi']

/-- C7, the failing input `"x\n \\\n b"` (`x`, newline, space, backslash, newline,
space, `b`): `min_indent` is 1, the skip of the indent of the second line lands on
the backslash, and line 87 copies it without the test of line 77; the newline after
it is copied by the next iteration.  Both bytes of the pair reach the output.
Without the space before the backslash line 77 sees the pair and drops it. -/
theorem dedent_escape_after_indent :
    bytes "x\n \\\n b" = [120, 10, 32, 92, 10, 32, 98] ∧
      minIndent 64 (bytes "x\n \\\n b") = some 1 ∧
      dedent 64 (bytes "x\n \\\n b") = some [120, 10, 92, 10, 98] ∧
      hasEscape [120, 10, 92, 10, 98] = true ∧
      dedent 64 (bytes "x\n\\\n b") = some [120, 10, 32, 98] := by
  decide

/-- C8, the claim as stated fails: in `"a\nb  "` no later line starts with a blank,
and the output keeps the trailing blanks. -/
theorem dedent_noIndent_counterexample :
    noIndent (bytes "a\nb  ") = true ∧
      dedent 64 (bytes "a\nb  ") = some (bytes "a\nb  ") ∧
      stripBoth (bytes "a\nb  ") = bytes "a\nb" ∧
      dedent 64 (bytes "a\nb  ") ≠ some (stripBoth (bytes "a\nb  ")) := by
  decide

/-- C8 as amended. For an input without a backslash-newline pair in which no line
after the first starts with a blank, the reconstructed text is the input from the
reconstruction start on (after the leading blanks of the first line, and after the
newline that follows them when there is one), and `dedent` returns it without its
last byte when that byte is a newline and not the only byte, and unchanged
otherwise; trailing blanks stay. -/
theorem dedent_noIndent (w : Nat) (xx : List Nat) (hf : Fits w xx) (hz : NulFree xx)
    (he : hasEscape xx = false) (hi : noIndent xx = true) :
    ∃ start new_line, findStart w xx = some (start, new_line) ∧
      xx.drop start = bodyL xx ∧
      reconstructed w xx = some (xx.drop start) ∧
      dedent w xx = some (if (xx.drop start).getLast? = some 10 ∧ 2 ≤ (xx.drop start).length
        then (xx.drop start).dropLast else xx.drop start) := by
  have hw : xx.length < 2 ^ w := by unfold Fits at hf; omega
  obtain ⟨h1, h2⟩ := dedentL_noIndent w xx hz he hi
  refine ⟨(startL xx).1, (startL xx).2, findStart_eq hw, drop_startL xx, ?_, ?_⟩
  · rw [reconstructed_eq hf hz, h1, drop_startL]
  · rw [dedent_eq hf hz, h2, drop_startL]

/-- The theorem of C8 at `"  a \nb\n"`, which gives `"a \nb"`. -/
theorem dedent_noIndent_witness :
    (∃ start new_line, findStart 64 (bytes "  a \nb\n") = some (start, new_line) ∧
      (bytes "  a \nb\n").drop start = bodyL (bytes "  a \nb\n") ∧
      reconstructed 64 (bytes "  a \nb\n") = some ((bytes "  a \nb\n").drop start) ∧
      dedent 64 (bytes "  a \nb\n")
        = some (if ((bytes "  a \nb\n").drop start).getLast? = some 10 ∧
            2 ≤ ((bytes "  a \nb\n").drop start).length
          then ((bytes "  a \nb\n").drop start).dropLast else (bytes "  a \nb\n").drop start)) ∧
    dedent 64 (bytes "  a \nb\n") = some (bytes "a \nb") :=
  ⟨dedent_noIndent 64 (bytes "  a \nb\n") (by decide) (by decide) (by decide) (by decide),
    by decide⟩

/-! ### Claim C9 -/

/-- C9, the claim as stated fails: the output is not `"a  b"`. -/
theorem dedent_continuation_counterexample :
    dedent 64 [97, 92, 10, 32, 32, 98] ≠ some [97, 32, 32, 98] := by
  decide

theorem dedentL_continuation (w : Nat) (hf : Fits w [97, 92, 10, 32, 32, 98]) :
    dedentL w [97, 92, 10, 32, 32, 98] = [97, 98] := by
  have hw : 2 < 2 ^ w - 1 := by
    unfold Fits at hf
    simp only [List.length_cons, List.length_nil] at hf
    omega
  have hm : minIndentL w [97, 92, 10, 32, 32, 98] = 2 := by
    have hs : scanStartL [97, 92, 10, 32, 32, 98] = [10, 32, 32, 98] := by decide
    rw [minIndentL_eq, hs]
    simp [scanL, isBlank, foldLast, hw]
  have hb : bodyL [97, 92, 10, 32, 32, 98] = [97, 92, 10, 32, 32, 98] := by decide
  unfold dedentL
  rw [reconL_eq, hm, hb]
  have hc : copyL 2 [97, 92, 10, 32, 32, 98] true = [97, 98] := by
    simp [copyL, isBlank]
  rw [hc]
  decide

/-- C9 as amended. For the 6-byte input `a`, backslash, newline, two spaces, `b`,
`dedent` returns the 2-byte string `"ab"`: the pair is dropped and the two spaces
after it are skipped as the indent of a new line. -/
theorem dedent_continuation (w : Nat) (hf : Fits w [97, 92, 10, 32, 32, 98]) :
    dedent w [97, 92, 10, 32, 32, 98] = some [97, 98] := by
  rw [dedent_eq hf (by decide), dedentL_continuation w hf]

/-- The theorem of C9 for a `size_t` of 64 bits. -/
theorem dedent_continuation_witness :
    bytes "a\\\n  b" = [97, 92, 10, 32, 32, 98] ∧
      dedent 64 [97, 92, 10, 32, 32, 98] = some [97, 98] :=
  ⟨by decide, dedent_continuation 64 (by decide)⟩

/-! ### Claim C10 -/

/-- C10. For an input without a `0` byte that fits the address space together with
the output buffer, `dedent` returns a string: every loop ends within
`str_len + 1` iterations, every read of `xx` is below `str_len`, every access to
`str` is within its `str_len + 1` bytes and reads a byte that was written, no
`size_t` sum exceeds `2 ^ w - 1` (so `i + min_indent` does not wrap and the position
after a skip is below `str_len`), and `--j` is never run at zero.  The same holds
for the three stages before the trailing trim. -/
theorem dedent_safe (w : Nat) (xx : List Nat) (hf : Fits w xx) (hz : NulFree xx) :
    (∃ start new_line, findStart w xx = some (start, new_line) ∧ start ≤ xx.length) ∧
      (∃ min_indent, minIndent w xx = some min_indent ∧
        xx.length + min_indent < 2 ^ w) ∧
      (∃ j str, reconstruct w xx = some (j, str) ∧ j ≤ xx.length ∧
        str.length = xx.length + 1) ∧
      (∃ out, dedent w xx = some out) := by
  have hw : xx.length < 2 ^ w := by unfold Fits at hf; omega
  have hm := minIndentL_le w xx
  have hr := reconL_length_le w xx
  refine ⟨⟨_, _, findStart_eq hw, startL_le xx⟩, ⟨_, minIndent_eq hw, ?_⟩,
    ⟨_, _, reconstruct_eq hf, by omega, ?_⟩, ⟨_, dedent_eq hf hz⟩⟩
  · unfold Fits at hf; omega
  · simp only [bufOf, List.length_append, List.length_map, List.length_cons, List.length_nil,
      List.length_replicate]
    omega

/-- The theorem of C10 at `"\n  a\n\t\\\n b  \n "`. -/
theorem dedent_safe_witness :
    (∃ start new_line, findStart 64 (bytes "\n  a\n\t\\\n b  \n ") = some (start, new_line) ∧
        start ≤ (bytes "\n  a\n\t\\\n b  \n ").length) ∧
      (∃ min_indent, minIndent 64 (bytes "\n  a\n\t\\\n b  \n ") = some min_indent ∧
        (bytes "\n  a\n\t\\\n b  \n ").length + min_indent < 2 ^ 64) ∧
      (∃ j str, reconstruct 64 (bytes "\n  a\n\t\\\n b  \n ") = some (j, str) ∧
        j ≤ (bytes "\n  a\n\t\\\n b  \n ").length ∧
        str.length = (bytes "\n  a\n\t\\\n b  \n ").length + 1) ∧
      (∃ out, dedent 64 (bytes "\n  a\n\t\\\n b  \n ") = some out) :=
  dedent_safe 64 (bytes "\n  a\n\t\\\n b  \n ") (by decide) (by decide)

/-! ### Claim C11 -/

theorem trim_index (w : Nat) : ∀ (x out : List (List Nat)), trim_ w x = some out →
    out.length = x.length ∧ ∀ i : Nat, out[i]? = (x[i]?).bind (dedent w) := by
  intro x
  induction x with
  | nil =>
    intro out h
    simp only [trim_, Option.some.injEq] at h
    subst h
    simp
  | cons xx rest ih =>
    intro out h
    rw [trim_] at h
    cases hd : dedent w xx with
    | none => rw [hd] at h; simp at h
    | some s =>
      cases hr : trim_ w rest with
      | none => rw [hd, hr] at h; simp at h
      | some o =>
        rw [hd, hr] at h
        simp only [Option.bind_eq_bind, Option.some_bind, Option.pure_def,
          Option.some.injEq] at h
        subst h
        obtain ⟨h1, h2⟩ := ih o hr
        refine ⟨by simp [h1], ?_⟩
        intro i
        cases i with
        | zero => simp [hd]
        | succ i => simpa using h2 i

theorem trim_some (w : Nat) : ∀ (x : List (List Nat)),
    (∀ xx ∈ x, Fits w xx ∧ NulFree xx) → trim_ w x = some (x.map (dedentL w)) := by
  intro x
  induction x with
  | nil => intro _; rfl
  | cons xx rest ih =>
    intro h
    rw [trim_, dedent_eq (h xx (by simp)).1 (h xx (by simp)).2,
      ih (fun y hy => h y (by simp [hy]))]
    rfl

/-- C11. `trim_` returns a vector of the length of its input whose element `i` is
`dedent` of element `i` of the input; element `i` of the result is the same for
every input vector that holds the same string at index `i`. -/
theorem trim_elementwise (w : Nat) (x : List (List Nat))
    (h : ∀ xx ∈ x, Fits w xx ∧ NulFree xx) :
    ∃ out, trim_ w x = some out ∧ out.length = x.length ∧
      (∀ (i : Nat) (xx : List Nat), x[i]? = some xx → dedent w xx = out[i]?) ∧
      (∀ (y outy : List (List Nat)), trim_ w y = some outy →
        ∀ i : Nat, y[i]? = x[i]? → outy[i]? = out[i]?) := by
  refine ⟨x.map (dedentL w), trim_some w x h, by simp, ?_, ?_⟩
  · intro i xx hi
    rw [(trim_index w x _ (trim_some w x h)).2 i, hi, Option.some_bind]
  · intro y outy hy i hi
    rw [(trim_index w y outy hy).2 i, (trim_index w x _ (trim_some w x h)).2 i, hi]

/-- The theorem of C11 at the vector `"  a\n   b"`, `""`, `"\n x\n "`, and its value. -/
theorem trim_elementwise_witness :
    (∃ out, trim_ 64 [bytes "  a\n   b", bytes "", bytes "\n x\n "] = some out ∧
      out.length = [bytes "  a\n   b", bytes "", bytes "\n x\n "].length ∧
      (∀ (i : Nat) (xx : List Nat),
        [bytes "  a\n   b", bytes "", bytes "\n x\n "][i]? = some xx →
          dedent 64 xx = out[i]?) ∧
      (∀ (y outy : List (List Nat)), trim_ 64 y = some outy →
        ∀ i : Nat, y[i]? = [bytes "  a\n   b", bytes "", bytes "\n x\n "][i]? →
          outy[i]? = out[i]?)) ∧
    trim_ 64 [bytes "  a\n   b", bytes "", bytes "\n x\n "]
      = some [bytes "a\nb", bytes "", bytes "x"] :=
  ⟨trim_elementwise 64 [bytes "  a\n   b", bytes "", bytes "\n x\n "] (by decide), by decide⟩

/-! ### Claim C12 -/

/-- The first line holds only blanks and a newline follows: the text starts after
that newline. -/
theorem bodyL_blank (B0 t : List Nat) (hB : AllBlank B0) : bodyL (B0 ++ 10 :: t) = t := by
  unfold bodyL
  rw [dropWhile_allBlank_append B0 _ hB]
  have : isBlank 10 = false := by decide
  simp [List.dropWhile_cons, this]

theorem flatMap_cutLine_cons (m : Nat) (l : List Nat × List Nat)
    (ls : List (List Nat × List Nat)) :
    (l :: ls).flatMap (cutLine m) = 10 :: (l.1.drop m ++ l.2 ++ ls.flatMap (cutLine m)) := by
  simp [List.flatMap_cons, cutLine]

theorem flatMap_encLine_cons (l : List Nat × List Nat) (ls : List (List Nat × List Nat)) :
    (l :: ls).flatMap encLine = 10 :: (l.1 ++ l.2 ++ ls.flatMap encLine) := by
  simp [List.flatMap_cons, encLine]

theorem copyL_allBlank (min_indent : Nat) (T : List Nat) (new_line : Bool)
    (hT : AllBlank T) : AllBlank (copyL min_indent T new_line) :=
  fun c hc => hT c ((copyL_sublist min_indent T new_line).subset hc)

/-- The text of a docstring: blank first line, lines with content, blank last line. -/
theorem dedentL_docstring (w : Nat) (B0 : List Nat) (lines : List (List Nat × List Nat))
    (T : List Nat) (m : Nat)
    (hf : Fits w (joinLines B0 lines ++ lastLine (some T)))
    (hne : lines ≠ []) (hB : AllBlank B0) (hT : AllBlank T)
    (hl : ∀ l ∈ lines, LineOk l)
    (he : hasEscape (joinLines B0 lines ++ lastLine (some T)) = false)
    (hle : ∀ l ∈ lines, m ≤ l.1.length) (hmT : m ≤ T.length)
    (hex : (∃ l ∈ lines, l.1.length = m) ∨ T.length = m) :
    dedentL w (joinLines B0 lines ++ lastLine (some T)) = (lines.flatMap (cutLine m)).tail := by
  have hmin : minIndentL w (joinLines B0 lines ++ lastLine (some T)) = m := by
    apply minIndentL_lines_last w B0 lines (some T) m hf hB.noNl hl
    · intro ws hws
      have : T = ws := by simpa using hws
      rw [← this]; exact hT
    · intro k hk
      simp only [Option.toList, List.map_cons, List.map_nil, List.mem_append, List.mem_map,
        List.mem_singleton] at hk
      rcases hk with ⟨l, hl1, rfl⟩ | rfl
      · exact hle l hl1
      · exact hmT
    · simp only [Option.toList, List.map_cons, List.map_nil, List.mem_append, List.mem_map,
        List.mem_singleton]
      rcases hex with ⟨l, hl1, hl2⟩ | h
      · exact Or.inl ⟨l, hl1, hl2⟩
      · exact Or.inr h.symm
  unfold dedentL
  rw [reconL_eq, hmin]
  unfold joinLines lastLine at he ⊢
  rw [List.append_assoc] at he ⊢
  have he1 : hasEscape (lines.flatMap encLine ++ 10 :: T) = false :=
    hasEscape_append_right B0 _ he
  have hcopy := copyL_lines m lines (10 :: T) true hl hle he1
  rw [if_neg hne, copyL_newline] at hcopy
  cases lines with
  | nil => exact absurd rfl hne
  | cons l ls =>
    obtain ⟨x, c, hc, _, _, _⟩ := (hl l (by simp)).content
    rw [flatMap_encLine_cons, List.cons_append] at hcopy ⊢
    rw [bodyL_blank B0 _ hB]
    rw [copyL_newline, flatMap_cutLine_cons, List.cons_append, List.cons.injEq] at hcopy
    rw [hcopy.2, flatMap_cutLine_cons, List.tail_cons]
    apply trimL_cut _ _ _ (copyL_allBlank m T true hT)
    rw [hc]; simp

/-- C12. For an input `B0 \n L1 \n ... \n Ln \n T` with `n >= 1`, `B0` and `T` runs of
blanks, every `Li` a run of blanks followed by content that holds no newline, is not
empty and does not start with a blank, and no backslash before a newline, `dedent`
returns the lines `Li` with exactly `m` leading bytes removed from each, `m` the
least of the lengths of their blank runs and of `T`, joined by single newlines,
without a newline at the start and without the last newline and `T`. -/
theorem dedent_docstring (w : Nat) (B0 : List Nat) (lines : List (List Nat × List Nat))
    (T : List Nat) (m : Nat)
    (hf : Fits w (joinLines B0 lines ++ lastLine (some T)))
    (hz : NulFree (joinLines B0 lines ++ lastLine (some T)))
    (hne : lines ≠ []) (hB : AllBlank B0) (hT : AllBlank T)
    (hl : ∀ l ∈ lines, LineOk l)
    (he : hasEscape (joinLines B0 lines ++ lastLine (some T)) = false)
    (hle : ∀ l ∈ lines, m ≤ l.1.length) (hmT : m ≤ T.length)
    (hex : (∃ l ∈ lines, l.1.length = m) ∨ T.length = m) :
    dedent w (joinLines B0 lines ++ lastLine (some T))
      = some ((lines.flatMap (cutLine m)).tail) := by
  rw [dedent_eq hf hz, dedentL_docstring w B0 lines T m hf hne hB hT hl he hle hmT hex]

/-- The two instances of C12: `"\n  test\n  "` gives `"test"` and `"\n    test\n  "`
gives `"  test"`. -/
theorem dedent_docstring_witness :
    (joinLines [] [(bytes "  ", bytes "test")] ++ lastLine (some (bytes "  "))
        = bytes "\n  test\n  " ∧
      dedent 64 (joinLines [] [(bytes "  ", bytes "test")] ++ lastLine (some (bytes "  ")))
        = some (bytes "test")) ∧
    (joinLines [] [(bytes "    ", bytes "test")] ++ lastLine (some (bytes "  "))
        = bytes "\n    test\n  " ∧
      dedent 64 (joinLines [] [(bytes "    ", bytes "test")] ++ lastLine (some (bytes "  ")))
        = some (bytes "  test")) :=
  ⟨⟨by decide, dedent_docstring 64 [] [(bytes "  ", bytes "test")] (bytes "  ") 2
      (by decide) (by decide) (by decide) (by decide) (by decide) (by decide) (by decide)
      (by decide) (by decide) (by decide)⟩,
   ⟨by decide, dedent_docstring 64 [] [(bytes "    ", bytes "test")] (bytes "  ") 2
      (by decide) (by decide) (by decide) (by decide) (by decide) (by decide) (by decide)
      (by decide) (by decide) (by decide)⟩⟩

/-! ### Claim C13 -/

theorem scanL_append : ∀ (a b : List Nat) (new_line : Bool) (indent min_indent : Nat),
    scanL (a ++ b) new_line indent min_indent
      = scanL b (scanL a new_line indent min_indent).1 (scanL a new_line indent min_indent).2.1
          (scanL a new_line indent min_indent).2.2 := by
  intro a
  induction a with
  | nil => intro b nl ind mi; rfl
  | cons c a ih =>
    intro b nl ind mi
    rw [List.cons_append, scanL, scanL]
    split_ifs <;> exact ih b _ _ _

theorem scanL_snoc_newline (a : List Nat) (new_line : Bool) (indent min_indent : Nat) :
    (scanL (a ++ [10]) new_line indent min_indent).1 = true := by
  rw [scanL_append, scanL_newline, scanL]

/-- A line with a byte that is not blank, read from a line start up to its newline:
the loop is left at a line start with `indent = 0`. -/
theorem scanL_last_line (last : List Nat) (hn : NoNl last)
    (hx : ∃ c ∈ last, isBlank c = false) (indent min_indent : Nat) :
    ∃ m, scanL (last ++ [10]) true indent min_indent = (true, 0, m) := by
  obtain ⟨x, s, hd, hxb⟩ := dropWhile_head isBlank last hx
  have hsplit := List.takeWhile_append_dropWhile isBlank last
  rw [hd] at hsplit
  have hws : AllBlank (last.takeWhile isBlank) := fun c hc => (List.mem_takeWhile_imp hc)
  have hxs : NoNl (x :: s) := hd ▸ hn.dropWhile isBlank
  have e : last ++ [10] = last.takeWhile isBlank ++ x :: s ++ [10] := by
    rw [hsplit]
  rw [e, scanL_line _ x s [10] indent min_indent hws hxb (hxs x (by simp))
    (fun y hy => hxs y (by simp [hy])), scanL_newline, scanL]
  exact ⟨_, rfl⟩

theorem takeWhile_length_le (p : Nat → Bool) (x : Nat) (hx : p x = false) :
    ∀ (a b : List Nat), ((a ++ x :: b).takeWhile p).length ≤ a.length := by
  intro a
  induction a with
  | nil => intro b; simp [List.takeWhile_cons, hx]
  | cons c a ih =>
    intro b
    by_cases hc : p c = true
    · simpa [List.takeWhile_cons, hc] using ih b
    · simp [List.takeWhile_cons, hc]

/-- The reconstruction start is not after the first byte that is neither a blank nor
a newline. -/
theorem startL_le_of_content (A B : List Nat) (x : Nat) (hxb : isBlank x = false)
    (hx10 : x ≠ 10) : (startL (A ++ x :: B)).1 ≤ A.length := by
  have hk := takeWhile_length_le isBlank x hxb A B
  unfold startL
  simp only
  by_cases hh : ((A ++ x :: B).drop ((A ++ x :: B).takeWhile isBlank).length).head? = some 10
  · rw [if_pos hh]
    rcases Nat.lt_or_ge (((A ++ x :: B).takeWhile isBlank).length) A.length with h | h
    · exact h
    · exfalso
      have he : ((A ++ x :: B).takeWhile isBlank).length = A.length := by omega
      rw [he, List.drop_left'] at hh
      · simp only [List.head?_cons, Option.some.injEq] at hh
        exact hx10 hh
      · rfl
  · rw [if_neg hh]
    exact hk

/-- The minimum indent is 0 when the text ends with a newline that closes a line
with a byte that is not blank. -/
theorem minIndentL_final_newline (w : Nat) (pre last : List Nat)
    (hpre : pre = [] ∨ pre.getLast? = some 10) (hn : NoNl last)
    (hx : ∃ c ∈ last, isBlank c = false) :
    minIndentL w (pre ++ last ++ [10]) = 0 := by
  rw [minIndentL_eq]
  rcases hpre with rfl | hp
  · rw [List.nil_append, scanStartL_first last [10] hn hx]
    have : [10].dropWhile (fun c => c != 10) = [10] := by decide
    rw [this, scanL_newline, scanL, foldLast_true_zero]
  · obtain ⟨pre', rfl⟩ := List.getLast?_eq_some_iff.1 hp
    have hsplit := List.takeWhile_append_dropWhile (fun c => c != 10) pre'
    have hL0 : NoNl (pre'.takeWhile (fun c => c != 10)) := by
      intro c hc
      simpa using List.mem_takeWhile_imp hc
    have hR : pre'.dropWhile (fun c => c != 10) ++ [10] ++ (last ++ [10])
          = [] ∨ ∃ t, pre'.dropWhile (fun c => c != 10) ++ [10] ++ (last ++ [10]) = 10 :: t := by
      right
      cases hd : pre'.dropWhile (fun c => c != 10) with
      | nil => exact ⟨last ++ [10], rfl⟩
      | cons d t =>
        have := List.head_dropWhile_not (fun c => c != 10) pre' (by rw [hd]; simp)
        simp only [hd, List.head_cons, bne_eq_false_iff_eq] at this
        subst this
        exact ⟨t ++ [10] ++ (last ++ [10]), by simp⟩
    have e : pre' ++ [10] ++ last ++ [10]
        = pre'.takeWhile (fun c => c != 10)
          ++ (pre'.dropWhile (fun c => c != 10) ++ [10] ++ (last ++ [10])) := by
      conv_lhs => rw [← hsplit]
      simp only [List.append_assoc]
    rw [e, scanL_scanStartL _ _ hL0 hR, scanL_append]
    have hnl := scanL_snoc_newline (pre'.dropWhile (fun c => c != 10)) true 0 (2 ^ w - 1)
    rw [hnl]
    obtain ⟨m, hm⟩ := scanL_last_line last hn hx
      (scanL (pre'.dropWhile (fun c => c != 10) ++ [10]) true 0 (2 ^ w - 1)).2.1
      (scanL (pre'.dropWhile (fun c => c != 10) ++ [10]) true 0 (2 ^ w - 1)).2.2
    rw [hm, foldLast_true_zero]

theorem dedentL_final_newline (w : Nat) (pre last : List Nat)
    (he : hasEscape (pre ++ last ++ [10]) = false)
    (hpre : pre = [] ∨ pre.getLast? = some 10) (hn : NoNl last)
    (hx : ∃ c ∈ last, isBlank c = false) :
    reconL w (pre ++ last ++ [10]) = bodyL (pre ++ last ++ [10]) ∧
      dedentL w (pre ++ last ++ [10]) = (bodyL (pre ++ last ++ [10])).dropLast := by
  have hm := minIndentL_final_newline w pre last hpre hn hx
  obtain ⟨a, ha⟩ := bodyL_suffix (pre ++ last ++ [10])
  have heb : hasEscape (bodyL (pre ++ last ++ [10])) = false :=
    hasEscape_append_right a _ (by rw [← ha]; exact he)
  have hr : reconL w (pre ++ last ++ [10]) = bodyL (pre ++ last ++ [10]) := by
    rw [reconL_eq, hm, copyL_zero _ _ heb]
  refine ⟨hr, ?_⟩
  obtain ⟨x, s, hd, hxb⟩ := dropWhile_head isBlank last hx
  have hsplit := List.takeWhile_append_dropWhile isBlank last
  rw [hd] at hsplit
  have hx10 : x ≠ 10 := hn x (by rw [← hsplit]; simp)
  have e : pre ++ last ++ [10] = (pre ++ last.takeWhile isBlank) ++ x :: (s ++ [10]) := by
    conv_lhs => rw [← hsplit]
    simp
  have hstart := startL_le_of_content (pre ++ last.takeWhile isBlank) (s ++ [10]) x hxb hx10
  rw [← e] at hstart
  have hlen : (pre ++ last ++ [10]).length
      = (pre ++ last.takeWhile isBlank).length + (s.length + 2) := by
    rw [e]; simp only [List.length_append, List.length_cons, List.length_nil]
  have hbl : 2 ≤ (bodyL (pre ++ last ++ [10])).length := by
    rw [← drop_startL, List.length_drop]; omega
  have hlast : (bodyL (pre ++ last ++ [10])).getLast? = some 10 := by
    rw [← drop_startL, List.getLast?_drop, if_neg (by omega), List.getLast?_concat]
  obtain ⟨q, hq⟩ := List.getLast?_eq_some_iff.1 hlast
  have hqne : q ≠ [] := by
    intro h
    rw [hq, h] at hbl
    simp at hbl
  unfold dedentL
  rw [hr, hq, List.dropLast_concat]
  have := trimL_cut q [] hqne (by intro c hc; simp at hc)
  exact this

/-- C15. For an input that ends with a newline, whose last line (the bytes `last`
between the newline before it, or the start, and the final newline) holds a byte
that is not blank, and without a backslash before a newline: the computed minimum
indent is 0, the reconstructed text is the input from the reconstruction start on
(after the leading blanks of the first line, and after the newline that follows
them when there is one), and the output is that text without the final newline. -/
theorem dedent_final_newline (w : Nat) (pre last : List Nat)
    (hf : Fits w (pre ++ last ++ [10])) (hz : NulFree (pre ++ last ++ [10]))
    (he : hasEscape (pre ++ last ++ [10]) = false)
    (hpre : pre = [] ∨ pre.getLast? = some 10) (hn : NoNl last)
    (hx : ∃ c ∈ last, isBlank c = false) :
    minIndent w (pre ++ last ++ [10]) = some 0 ∧
      ∃ start new_line, findStart w (pre ++ last ++ [10]) = some (start, new_line) ∧
        (pre ++ last ++ [10]).drop start = bodyL (pre ++ last ++ [10]) ∧
        reconstructed w (pre ++ last ++ [10]) = some ((pre ++ last ++ [10]).drop start) ∧
        dedent w (pre ++ last ++ [10]) = some (((pre ++ last ++ [10]).drop start).dropLast) := by
  have hw : (pre ++ last ++ [10]).length < 2 ^ w := by unfold Fits at hf; omega
  obtain ⟨h1, h2⟩ := dedentL_final_newline w pre last he hpre hn hx
  refine ⟨?_, (startL (pre ++ last ++ [10])).1, (startL (pre ++ last ++ [10])).2,
    findStart_eq hw, drop_startL _, ?_, ?_⟩
  · rw [minIndent_eq hw, minIndentL_final_newline w pre last hpre hn hx]
  · rw [reconstructed_eq hf hz, h1, drop_startL]
  · rw [dedent_eq hf hz, h2, drop_startL]

/-- The instance of C15: `"\n  a\n  b\n"` gives `"  a\n  b"`. -/
theorem dedent_final_newline_witness :
    (bytes "\n  a\n" ++ bytes "  b" ++ [10] = bytes "\n  a\n  b\n" ∧
      minIndent 64 (bytes "\n  a\n" ++ bytes "  b" ++ [10]) = some 0 ∧
      ∃ start new_line,
        findStart 64 (bytes "\n  a\n" ++ bytes "  b" ++ [10]) = some (start, new_line) ∧
        (bytes "\n  a\n" ++ bytes "  b" ++ [10]).drop start
          = bodyL (bytes "\n  a\n" ++ bytes "  b" ++ [10]) ∧
        reconstructed 64 (bytes "\n  a\n" ++ bytes "  b" ++ [10])
          = some ((bytes "\n  a\n" ++ bytes "  b" ++ [10]).drop start) ∧
        dedent 64 (bytes "\n  a\n" ++ bytes "  b" ++ [10])
          = some (((bytes "\n  a\n" ++ bytes "  b" ++ [10]).drop start).dropLast)) ∧
    dedent 64 (bytes "\n  a\n  b\n") = some (bytes "  a\n  b") :=
  ⟨⟨by decide, dedent_final_newline 64 (bytes "\n  a\n") (bytes "  b") (by decide) (by decide)
    (by decide) (by decide) (by decide) (by decide)⟩, by decide⟩

/-! ### Claim C16 -/

/-- C16. With `r` the text written by the copy loop: when `r` is `p`, a newline and a
run of blanks (maybe empty) with `p` not empty, the output is `p`; in every other
case the output is `r`. -/
theorem dedent_trim_exact (w : Nat) (xx : List Nat) (hf : Fits w xx) (hz : NulFree xx) :
    ∃ r, reconstructed w xx = some r ∧
      (∀ p ws, r = p ++ 10 :: ws → p ≠ [] → AllBlank ws → dedent w xx = some p) ∧
      ((¬ ∃ p ws, r = p ++ 10 :: ws ∧ p ≠ [] ∧ AllBlank ws) → dedent w xx = some r) := by
  refine ⟨reconL w xx, reconstructed_eq hf hz, ?_, ?_⟩
  · intro p ws hr hp hws
    rw [dedent_eq hf hz, dedentL, hr, trimL_cut p ws hp hws]
  · intro hno
    rw [dedent_eq hf hz, dedentL]
    congr 1
    obtain ⟨p, ws, hr, hws, hp⟩ := trailing_blanks (reconL w xx)
    rcases hp with rfl | ⟨q, x, rfl, hxb⟩
    · exact trimL_allBlank _ (by rw [hr]; simpa using hws)
    · have e : reconL w xx = q ++ x :: ws := by rw [hr]; simp
      by_cases hx : x = 10
      · subst hx
        cases q with
        | nil =>
          rw [e]
          exact trimL_short 10 ws hws
        | cons y q => exact absurd ⟨y :: q, ws, e, by simp, hws⟩ hno
      · have hx0 : x ≠ 0 := reconL_nulFree hz x (by rw [e]; simp)
        rw [e]
        exact trimL_keep q ws x hws hx hx0 hxb

/-- The theorem of C16 at `"a \n  b\n \t"`, whose reconstructed text is
`"a \nb\n \t"`, and the value there. -/
theorem dedent_trim_exact_witness :
    (∃ r, reconstructed 64 (bytes "a \n  b\n \t") = some r ∧
      (∀ p ws, r = p ++ 10 :: ws → p ≠ [] → AllBlank ws →
        dedent 64 (bytes "a \n  b\n \t") = some p) ∧
      ((¬ ∃ p ws, r = p ++ 10 :: ws ∧ p ≠ [] ∧ AllBlank ws) →
        dedent 64 (bytes "a \n  b\n \t") = some r)) ∧
    reconstructed 64 (bytes "a \n  b\n \t") = some (bytes "a \nb\n \t") ∧
    dedent 64 (bytes "a \n  b\n \t") = some (bytes "a \nb") :=
  ⟨dedent_trim_exact 64 (bytes "a \n  b\n \t") (by decide) (by decide), by decide, by decide⟩

/-! ### Claim C17 -/

/-- C17. After the measuring scan `min_indent` no longer has its initial value
`(size_t)-1`; it is at most the number of bytes from the reconstruction start to
the end, so `i + min_indent` does not wrap for any `i` below `str_len`; for an input
without a newline it is 0. -/
theorem minIndent_assigned (w : Nat) (xx : List Nat) (hf : Fits w xx) :
    ∃ start new_line min_indent, findStart w xx = some (start, new_line) ∧
      minIndent w xx = some min_indent ∧ min_indent ≠ 2 ^ w - 1 ∧
      min_indent ≤ xx.length - start ∧
      (∀ i, i < xx.length → i + min_indent < 2 ^ w) ∧
      (NoNl xx → min_indent = 0) := by
  have hw : xx.length < 2 ^ w := by unfold Fits at hf; omega
  have hm := minIndentL_le w xx
  unfold Fits at hf
  refine ⟨(startL xx).1, (startL xx).2, minIndentL w xx, findStart_eq hw, minIndent_eq hw,
    by omega, hm, fun i hi => by omega, ?_⟩
  intro hn
  rw [minIndentL_eq, scanStartL_noNl hn, scanL, foldLast_true_zero]

/-- The theorem of C17 at `"\n \n    b"`, where `min_indent` is 5, and at `"  ab "`. -/
theorem minIndent_assigned_witness :
    (∃ start new_line min_indent, findStart 64 (bytes "\n \n    b") = some (start, new_line) ∧
      minIndent 64 (bytes "\n \n    b") = some min_indent ∧ min_indent ≠ 2 ^ 64 - 1 ∧
      min_indent ≤ (bytes "\n \n    b").length - start ∧
      (∀ i, i < (bytes "\n \n    b").length → i + min_indent < 2 ^ 64) ∧
      (NoNl (bytes "\n \n    b") → min_indent = 0)) ∧
    minIndent 64 (bytes "\n \n    b") = some 5 ∧ minIndent 64 (bytes "  ab ") = some 0 :=
  ⟨minIndent_assigned 64 (bytes "\n \n    b") (by decide), by decide, by decide⟩

/-! ### Claim C18 -/

/-- C18. The output of `dedent` is a subsequence of the input, and of the part of the
input that begins at the reconstruction start: bytes are deleted, none is added,
changed or moved. -/
theorem dedent_sublist (w : Nat) (xx : List Nat) (hf : Fits w xx) (hz : NulFree xx) :
    ∃ start new_line out, findStart w xx = some (start, new_line) ∧
      dedent w xx = some out ∧ List.Sublist out (xx.drop start) ∧ List.Sublist out xx := by
  have hw : xx.length < 2 ^ w := by unfold Fits at hf; omega
  refine ⟨(startL xx).1, (startL xx).2, dedentL w xx, findStart_eq hw, dedent_eq hf hz, ?_,
    dedentL_sublist w xx⟩
  exact (List.take_sublist _ _).trans (copyL_sublist _ _ _)

/-- The theorem of C18 at `"  a\\\n \tb\n  c \n "`. -/
theorem dedent_sublist_witness :
    ∃ start new_line out, findStart 64 (bytes "  a\\\n \tb\n  c \n ") = some (start, new_line) ∧
      dedent 64 (bytes "  a\\\n \tb\n  c \n ") = some out ∧
      List.Sublist out ((bytes "  a\\\n \tb\n  c \n ").drop start) ∧
      List.Sublist out (bytes "  a\\\n \tb\n  c \n ") :=
  dedent_sublist 64 (bytes "  a\\\n \tb\n  c \n ") (by decide) (by decide)

end Glue
